import Mathlib

/-!
Verification of the tree-aggregation / anomaly-detection / diffing core of the
binmave-cli repository (Go sources under internal/ui).  Every definition below
is a shallow embedding of a concrete Go function, translated line by line from
the source; the comment above each definition names the Go function it embeds.

Modelling conventions, used throughout:

* Go's `interface{}` holding a decoded JSON document is embedded as the
  inductive `Json`.  `encoding/json.Unmarshal` produces `float64` for all JSON
  numbers; the claims under verification only involve integer-valued numbers,
  which Go's `%v` verb prints exactly like `Int.toString` prints an `Int`
  (e.g. `float64(1)` prints as `1`), so numbers are embedded as `Int`.
* Go maps (`map[string]interface{}`) decoded from JSON have unique keys and an
  unspecified iteration order.  They are embedded as association lists
  (`List (String × Json)`); wherever a Go loop iterates over a map, the
  embedding iterates over the list and the surrounding comment explains why
  the verified property does not depend on the iteration order.
* Go strings are embedded as Lean `String`.  Go indexes/measures strings in
  bytes while Lean's `String.length`/`take`/`drop` work in characters; these
  coincide on ASCII data, and the equalities proved about concrete inputs use
  ASCII strings only.  Go's byte-wise string comparison coincides with
  character-code lexicographic comparison on `String.data` for ASCII, which is
  how string ordering is embedded (`strLt` below).
* A `nil` Go error / failed `json.Unmarshal` is embedded by giving each
  execution result a `parsedAnswer : Option Json` field: `none` models a parse
  failure of the raw `answerJSON` text, `some v` a successful parse to `v`.
-/

set_option autoImplicit false

namespace BinmaveSpec

/-- Parsed JSON value, the embedding of a decoded `interface{}` payload. -/
inductive Json where
  | null
  | bool (b : Bool)
  | num (n : Int)
  | str (s : String)
  | arr (items : List Json)
  | obj (fields : List (String × Json))

/-- Association-list lookup on an object's fields; embeds Go's `m[key]`
map access (`none` when the key is absent, which in Go yields a `nil`
`interface{}` together with `ok = false`). -/
def lookupField : List (String × Json) → String → Option Json
  | [], _ => none
  | (k, v) :: rest, key => if k = key then some v else lookupField rest key

/-- True exactly when the value is a JSON object or array; embeds the Go
`switch v.(type) { case map[string]interface{}, []interface{} }` test. -/
def Json.isComposite : Json → Bool
  | .obj _ => true
  | .arr _ => true
  | _ => false

/-- Rendering of a scalar JSON value by Go's `%v` verb (`fmt.Sprintf`):
strings print verbatim, booleans as `true`/`false`, integer-valued numbers
as their decimal form, and a `nil` interface prints as `<nil>`.  The
composite cases are never reached at any call site in this file (all call
sites first branch on `Json.isComposite`); they are given the placeholder
`""`. -/
def goFormat : Json → String
  | .null => "<nil>"
  | .bool b => if b then "true" else "false"
  | .num n => toString n
  | .str s => s
  | .arr _ => ""
  | .obj _ => ""

/-- Embeds `toStringKey` (results.go): converts a value to a string key,
returning the empty string for non-scalar types.  In Go the `nil` interface
matches no case of the type switch and falls to the default branch, so
`null` also maps to `""`. -/
def toStringKey : Json → String
  | .str s => s
  | .num n => toString n
  | .bool b => if b then "true" else "false"
  | _ => ""

/-- Embeds `truncateString(s, max)`: newlines are replaced by spaces and
carriage returns removed (Go's two `strings.ReplaceAll` calls), then the
string is returned unchanged when its length is at most `maxLen`, and
otherwise cut to `maxLen - 3` characters with `"..."` appended. -/
def truncateString (s : String) (maxLen : Nat) : String :=
  let s1 : String := ⟨s.data.map (fun c => if c = '\n' then ' ' else c)⟩
  let s2 : String := ⟨s1.data.filter (fun c => c ≠ '\r')⟩
  if s2.length ≤ maxLen then s2 else ⟨s2.data.take (maxLen - 3)⟩ ++ "..."

/-- The ordered list of candidate label keys scanned by `findLabel`. -/
def labelKeys : List String :=
  ["name", "Name", "label", "Label", "title", "Title", "path", "Path",
   "key", "Key", "id", "Id", "ID"]

/-- Helper for `findLabel`: scan the candidate keys in order; a key
contributes only when it is present and its value is a non-empty string
(Go: `if val, ok := m[key]; ok { if s, ok := val.(string); ok && s != "" {
return s } }` — note the loop continues past a present key whose value is
not a non-empty string). -/
def findLabelLoop (m : List (String × Json)) : List String → String
  | [] => ""
  | k :: ks =>
    match lookupField m k with
    | some (.str s) => if s = "" then findLabelLoop m ks else s
    | _ => findLabelLoop m ks

/-- Embeds `findLabel(m)`: tries to find a good label from a map. -/
def findLabel (m : List (String × Json)) : String :=
  findLabelLoop m labelKeys

/-- Node of a (per-agent or aggregated) tree; embeds the Go
`components.TreeNode` struct.  Fields left unset by a Go composite literal
take their zero values, which each construction site below writes out
explicitly. -/
inductive TreeNode where
  | mk (id : String) (label : String) (children : List TreeNode)
       (expanded : Bool) (depth : Nat)
       (count : Nat) (totalCount : Nat) (agentNames : List String)
       (isAnomaly : Bool)

def TreeNode.id : TreeNode → String
  | .mk i _ _ _ _ _ _ _ _ => i

def TreeNode.label : TreeNode → String
  | .mk _ l _ _ _ _ _ _ _ => l

def TreeNode.children : TreeNode → List TreeNode
  | .mk _ _ c _ _ _ _ _ _ => c

def TreeNode.expanded : TreeNode → Bool
  | .mk _ _ _ e _ _ _ _ _ => e

def TreeNode.depth : TreeNode → Nat
  | .mk _ _ _ _ d _ _ _ _ => d

def TreeNode.count : TreeNode → Nat
  | .mk _ _ _ _ _ c _ _ _ => c

def TreeNode.totalCount : TreeNode → Nat
  | .mk _ _ _ _ _ _ t _ _ => t

def TreeNode.agentNames : TreeNode → List String
  | .mk _ _ _ _ _ _ _ a _ => a

def TreeNode.isAnomaly : TreeNode → Bool
  | .mk _ _ _ _ _ _ _ _ a => a

/-- Replace the `expanded` flag of a node (Go: `n.Expanded = b`). -/
def TreeNode.withExpanded (b : Bool) : TreeNode → TreeNode
  | .mk i l c _ d ct tc an ia => .mk i l c b d ct tc an ia

/-- One agent's normalized result tree; embeds `components.AgentTree`. -/
structure AgentTree where
  agentID : String
  agentName : String
  roots : List TreeNode
  nodeCount : Nat
  expanded : Bool

/-- One agent's fetched execution result; embeds the fields of
`api.ExecutionResult` that the data-shaping core consumes.  `parsedAnswer`
records the outcome of `json.Unmarshal([]byte(answerJSON))` (see the
modelling conventions above). -/
structure ExecutionResult where
  agentID : String
  agentName : String
  answerJSON : String
  parsedAnswer : Option Json

mutual

/-- Embeds `buildTreeNodes(data, depth, count)` (results.go): recursively
builds tree nodes from JSON data.  The Go `*int` counter is threaded as an
explicit second component.  Go iterates the object case over a map in
unspecified order; the embedding uses the field-list order (the verified
claims are insensitive to sibling order of an object's keys). -/
def buildTreeNodes : Json → Nat → Nat → List TreeNode × Nat
  | .obj fields, depth, cnt => buildTreeNodesObj fields depth cnt
  | .arr items, depth, cnt => buildTreeNodesArr items 0 depth cnt
  | _, _, cnt => ([], cnt)

/-- Object branch of `buildTreeNodes`: one node per key; composite values
recurse into children with the bare key as label, scalar values render as
`"<key>: <value>"`. -/
def buildTreeNodesObj : List (String × Json) → Nat → Nat → List TreeNode × Nat
  | [], _, cnt => ([], cnt)
  | (key, value) :: rest, depth, cnt =>
    let c1 := cnt + 1
    let idStr := toString c1 ++ "-" ++ key
    if value.isComposite then
      let pr := buildTreeNodes value (depth + 1) c1
      let node : TreeNode := .mk idStr key pr.1 false depth 0 0 [] false
      let rec2 := buildTreeNodesObj rest depth pr.2
      (node :: rec2.1, rec2.2)
    else
      let node : TreeNode :=
        .mk idStr (key ++ ": " ++ goFormat value) [] false depth 0 0 [] false
      let rec2 := buildTreeNodesObj rest depth c1
      (node :: rec2.1, rec2.2)

/-- Array branch of `buildTreeNodes`: one node per element, at element index
`i`; object elements take `findLabel` (falling back to `"[<i>]"`), array
elements render `"[<i>] (<n> items)"`, scalars `"[<i>]: <value>"`. -/
def buildTreeNodesArr : List Json → Nat → Nat → Nat → List TreeNode × Nat
  | [], _, _, cnt => ([], cnt)
  | item :: rest, i, depth, cnt =>
    let c1 := cnt + 1
    let idStr := toString c1 ++ "-[" ++ toString i ++ "]"
    match item with
    | .obj f =>
      let lbl0 := findLabel f
      let lbl := if lbl0 = "" then "[" ++ toString i ++ "]" else lbl0
      let pr := buildTreeNodes item (depth + 1) c1
      let node : TreeNode := .mk idStr lbl pr.1 false depth 0 0 [] false
      let rec2 := buildTreeNodesArr rest (i + 1) depth pr.2
      (node :: rec2.1, rec2.2)
    | .arr inner =>
      let lbl := "[" ++ toString i ++ "] (" ++ toString inner.length ++ " items)"
      let pr := buildTreeNodes item (depth + 1) c1
      let node : TreeNode := .mk idStr lbl pr.1 false depth 0 0 [] false
      let rec2 := buildTreeNodesArr rest (i + 1) depth pr.2
      (node :: rec2.1, rec2.2)
    | _ =>
      let lbl := "[" ++ toString i ++ "]: " ++ goFormat item
      let node : TreeNode := .mk idStr lbl [] false depth 0 0 [] false
      let rec2 := buildTreeNodesArr rest (i + 1) depth c1
      (node :: rec2.1, rec2.2)

end

/-- Embeds `buildAgentTree(result)` (results.go): parse failure (here:
`parsedAnswer = none`) degrades to a single leaf node labelled with the raw
answer text truncated to 100 characters and a node count of 1; otherwise
the roots come from `buildTreeNodes` starting at depth 0 with the counter
at 0. -/
def buildAgentTree (result : ExecutionResult) : AgentTree :=
  match result.parsedAnswer with
  | none =>
    { agentID := result.agentID, agentName := result.agentName,
      roots := [.mk "0" (truncateString result.answerJSON 100) [] false 0 0 0 [] false],
      nodeCount := 1, expanded := false }
  | some data =>
    let pr := buildTreeNodes data 0 0
    { agentID := result.agentID, agentName := result.agentName,
      roots := pr.1, nodeCount := pr.2, expanded := false }

/-- Embeds the loop of `rebuildTreeFromResults`: one tree per result, in
order.  (The Go guard `if tree != nil` never fires: `buildAgentTree`
always returns a non-nil tree, so the loop is exactly a map.) -/
def agentTreesOfResults (results : List ExecutionResult) : List AgentTree :=
  results.map buildAgentTree

/-- Accumulator entry of the aggregation pass; embeds the Go
`aggregatedPath` struct.  (The Go struct also carries a `children` map
which is allocated but never read or written anywhere, so it is omitted.) -/
structure AggEntry where
  label : String
  count : Nat
  agentNames : List String

/-- The Go `map[string]*aggregatedPath` accumulator is embedded as an
association list with unique keys; new keys are appended at the end
(lookup order is irrelevant: Go map iteration order is unspecified, and
the consumers below are shown not to depend on it). -/
def touchPath : List (String × AggEntry) → String → String → String →
    List (String × AggEntry)
  | [], path, lbl, agent => [(path, ⟨lbl, 1, [agent]⟩)]
  | (k, e) :: rest, path, lbl, agent =>
    if k = path then (k, ⟨e.label, e.count + 1, e.agentNames ++ [agent]⟩) :: rest
    else (k, e) :: touchPath rest path lbl agent

mutual

/-- Embeds `collectPaths(nodes, prefix, agentName, paths)`: depth-first
walk; each visited node increments the count of its label-path
(`<parent-path>/<label>`) and appends the agent name (no deduplication),
then the children are walked.  The per-node loop body is split into
`collectPathsNode`. -/
def collectPaths : List TreeNode → String → String → List (String × AggEntry) →
    List (String × AggEntry)
  | [], _, _, paths => paths
  | node :: rest, pfx, agentName, paths =>
    collectPaths rest pfx agentName (collectPathsNode node pfx agentName paths)

/-- Loop body of `collectPaths` for one node: touch the node's label-path
and, when the node has children (the Go guard `len(node.Children) > 0`),
walk them with the node's path as the new prefix. -/
def collectPathsNode : TreeNode → String → String → List (String × AggEntry) →
    List (String × AggEntry)
  | .mk _ lbl children _ _ _ _ _ _, pfx, agentName, paths =>
    let path := pfx ++ "/" ++ lbl
    let paths1 := touchPath paths path lbl agentName
    match children with
    | [] => paths1
    | _ :: _ => collectPaths children path agentName paths1

end

/-- Embeds the Go loop `for _, agentTree := range m.agentTrees {
collectPaths(agentTree.Roots, "", agentTree.AgentName, pathCounts) }`. -/
def aggregatePathCounts (agentTrees : List AgentTree) : List (String × AggEntry) :=
  agentTrees.foldl (fun paths t => collectPaths t.roots "" t.agentName paths) []

/-- Embeds `strings.HasPrefix(s, pre)` as a character-list prefix test
(identical to Go's byte-wise test on ASCII data). -/
def goStartsWith (s pre : String) : Bool :=
  pre.data.isPrefixOf s.data

/-- Embeds `strings.TrimPrefix(s, pre)`. -/
def goTrimStart (s pre : String) : String :=
  if goStartsWith s pre then ⟨s.data.drop pre.data.length⟩ else s

/-- Embeds `strings.Contains(s, "/")` for the single character `/`. -/
def goContainsSlash (s : String) : Bool :=
  s.data.contains '/'

/-- The direct-child test of `buildAggregatedNodes`: `path` starts with
`pfx + "/"` and the remainder contains no further `/`. -/
def directChildOf (pfx path : String) : Bool :=
  goStartsWith path (pfx ++ "/") && !goContainsSlash (goTrimStart path (pfx ++ "/"))

/-- Embeds `anomalyThreshold := totalAgents / 10; if anomalyThreshold < 1 {
anomalyThreshold = 1 }` (integer division). -/
def anomalyThreshold (totalAgents : Nat) : Nat :=
  let t := totalAgents / 10
  if t < 1 then 1 else t

/-- Insertion step of the count-descending sort of sibling entries. -/
def insertByCountDesc (e : String × AggEntry) :
    List (String × AggEntry) → List (String × AggEntry)
  | [] => [e]
  | f :: fs =>
    if f.2.count < e.2.count then e :: f :: fs else f :: insertByCountDesc e fs

/-- Embeds the `sort.Slice(entries, func(i, j) { return entries[i].p.count >
entries[j].p.count })` call.  `sort.Slice` is not stable and Go leaves the
relative order of equal-count entries unspecified; this embedding picks one
deterministic order, and every property proved below is insensitive to the
order of equal-count siblings. -/
def sortByCountDesc (l : List (String × AggEntry)) : List (String × AggEntry) :=
  l.foldr insertByCountDesc []

/-- Fuelled core of `buildAggregatedNodes(paths, prefix, totalAgents,
anomaliesOnly)`.  The Go recursion terminates because every recursive call
descends to a strictly longer prefix that is itself a key of `paths`; the
fuel makes that termination measure explicit while keeping the definition
kernel-computable.  `buildAggregatedNodes` below supplies fuel
`paths.length + 1`, which is proved sufficient
(`buildAggregatedNodesF_fuel_stable`): the recursion depth is bounded by
the number of keys strictly longer than the current prefix. -/
def buildAggregatedNodesF (paths : List (String × AggEntry)) :
    Nat → String → Nat → Bool → List TreeNode
  | 0, _, _, _ => []
  | fuel + 1, pfx, totalAgents, anomaliesOnly =>
    let entries := sortByCountDesc (paths.filter (fun pe => directChildOf pfx pe.1))
    entries.filterMap (fun e =>
      if anomaliesOnly && !decide (e.2.count ≤ anomalyThreshold totalAgents) then
        none
      else
        some (.mk e.1 e.2.label
          (buildAggregatedNodesF paths fuel e.1 totalAgents anomaliesOnly)
          false 0 e.2.count totalAgents e.2.agentNames
          (decide (e.2.count ≤ anomalyThreshold totalAgents))))

/-- Embeds `buildAggregatedNodes(paths, prefix, totalAgents, anomaliesOnly)`
(results.go): direct children of the prefix, sorted by count descending,
each skipped when `anomaliesOnly` is set and the entry is not anomalous,
and otherwise kept with `isAnomaly := count ≤ anomalyThreshold` and with
children built recursively from the entry's own path. -/
def buildAggregatedNodes (paths : List (String × AggEntry)) (pfx : String)
    (totalAgents : Nat) (anomaliesOnly : Bool) : List TreeNode :=
  buildAggregatedNodesF paths (paths.length + 1) pfx totalAgents anomaliesOnly

/-- Embeds `rebuildAggregatedTree` (results.go): a no-op when there are no
agent trees, otherwise the synthetic pre-expanded "All Agents (N)" tree
whose roots are the aggregated nodes. -/
def rebuildAggregatedTree (agentTrees : List AgentTree) (anomaliesOnly : Bool) :
    Option AgentTree :=
  if agentTrees.length = 0 then none
  else
    let pathCounts := aggregatePathCounts agentTrees
    some
      { agentID := "aggregated",
        agentName := "All Agents (" ++ toString agentTrees.length ++ ")",
        roots := buildAggregatedNodes pathCounts "" agentTrees.length anomaliesOnly,
        nodeCount := pathCounts.length,
        expanded := true }

/-! ### Structure detector (results.go) -/

/-- Root test of `hasSelfReferentialFields`: Go first compares the raw
`parentVal` interface against `nil` (which a missing map key also
produces, as does a decoded JSON `null`), and otherwise classifies a value
whose `toStringKey` form is `""` or `"0"` as a root. -/
def rootRef (v : Option Json) : Bool :=
  match v with
  | none => true
  | some .null => true
  | some w =>
    let s := toStringKey w
    s = "" || s = "0"

/-- Valid-reference test of `hasSelfReferentialFields`: a root, or a value
whose `toStringKey` form is a collected id value. -/
def validRef (ids : List String) (v : Option Json) : Bool :=
  rootRef v ||
    (match v with
     | some w => ids.contains (toStringKey w)
     | none => false)

/-- The id values collected for a candidate id column: for each object row,
the `toStringKey` form of the column's value, skipping absent keys, JSON
nulls (Go's `val != nil` check) and values whose string form is empty
(non-scalars and empty strings).  Go stores these in a `map[string]bool`
of which only emptiness and membership are consumed, so the (possibly
repetitive) list is an equivalent embedding. -/
def idValuesOf (rowMaps : List (List (String × Json))) (idCol : String) :
    List String :=
  rowMaps.filterMap (fun row =>
    match lookupField row idCol with
    | none => none
    | some .null => none
    | some w => if toStringKey w = "" then none else some (toStringKey w))

/-- The object rows of the input (Go: the `rowMaps` slice collecting the
rows that type-assert to `map[string]interface{}`). -/
def objRows (rows : List Json) : List (List (String × Json)) :=
  rows.filterMap (fun r =>
    match r with
    | .obj m => some m
    | _ => none)

/-- The column names of the first object row (Go collects the keys of
`rowMaps[0]` from a map in unspecified order; the detector result is an
existential over column pairs and hence independent of that order). -/
def firstColumns (rows : List Json) : List String :=
  ((objRows rows).headD []).map Prod.fst

/-- Embeds `hasSelfReferentialFields(rows)` (results.go).  Go's
`refRatio := float64(validRefs) / float64(len(rowMaps)); refRatio >= 0.8`
is embedded as the exact comparison `4 * len ≤ 5 * validRefs`: for any
`v ≤ n` with `n` below 2^50 the rounded double quotient compares to the
double literal `0.8` exactly as the rational `v/n` compares to `4/5`
(the double nearest to `0.8` exceeds `4/5` by about `4.4e-17`, far less
than the `1/(5n)` granularity of the quotient). -/
def hasSelfReferentialFields (rows : List Json) : Bool :=
  if rows.length < 2 then false
  else
    let rowMaps := objRows rows
    if rowMaps.length < 2 then false
    else
      let columns := firstColumns rows
      if columns.length < 2 then false
      else
        columns.any (fun idCol =>
          let idValues := idValuesOf rowMaps idCol
          if idValues.isEmpty then false
          else
            columns.any (fun parentCol =>
              if idCol = parentCol then false
              else
                let validRefs :=
                  rowMaps.countP (fun row => validRef idValues (lookupField row parentCol))
                let hasRoot :=
                  rowMaps.any (fun row => rootRef (lookupField row parentCol))
                decide (4 * rowMaps.length ≤ 5 * validRefs) && hasRoot))

/-- Embeds `hasNestedStructure(data)` (results.go). -/
def hasNestedStructure (data : Json) : Bool :=
  match data with
  | .arr items =>
    match items with
    | [] => false
    | first :: _ =>
      match first with
      | .obj fields =>
        if fields.any (fun kv => kv.2.isComposite) then true
        else hasSelfReferentialFields items
      | _ => false
  | .obj fields => fields.any (fun kv => kv.2.isComposite)
  | _ => false

/-- Scalar test used by the claim-side reading of the detector ("scalar
value appearing in idColumn"). -/
def Json.isScalar : Json → Bool
  | .bool _ => true
  | .num _ => true
  | .str _ => true
  | _ => false

/-- Structural equality of two scalar JSON values (used by the claim-side
reading, which compares JSON values rather than string keys). -/
def scalarEqb : Json → Json → Bool
  | .null, .null => true
  | .bool a, .bool b => a = b
  | .num a, .num b => a = b
  | .str a, .str b => a = b
  | _, _ => false

/-- The detector as claim C4 words it (its comparison definition, used
only to exhibit where the claim and the code disagree): a pair of distinct
shared columns qualifies when, classifying a row's parentColumn value as
valid iff it is null (or absent), the empty string, the literal `"0"`, or
equal to some scalar value appearing in idColumn, at least 80% of the rows
are valid and some row is a root (null/empty/`"0"`). -/
def hasSelfRefClaimed (rows : List Json) : Bool :=
  let rowMaps := rows.filterMap (fun r =>
    match r with
    | .obj m => some m
    | _ => none)
  let shared := ((rowMaps.headD []).map Prod.fst).filter
    (fun k => rowMaps.all (fun row => (lookupField row k).isSome))
  if rowMaps.length < 2 || shared.length < 2 then false
  else
    shared.any (fun idCol =>
      shared.any (fun parentCol =>
        if idCol = parentCol then false
        else
          let idVals := rowMaps.filterMap (fun row =>
            match lookupField row idCol with
            | some w => if w.isScalar then some w else none
            | none => none)
          let claimValid : Option Json → Bool := fun v =>
            match v with
            | none => true
            | some .null => true
            | some (.str "") => true
            | some (.str "0") => true
            | some w => idVals.any (fun u => scalarEqb u w)
          let claimRoot : Option Json → Bool := fun v =>
            match v with
            | none => true
            | some .null => true
            | some (.str "") => true
            | some (.str "0") => true
            | some _ => false
          let validRefs := rowMaps.countP (fun row => claimValid (lookupField row parentCol))
          let hasRoot := rowMaps.any (fun row => claimRoot (lookupField row parentCol))
          decide (4 * rowMaps.length ≤ 5 * validRefs) && hasRoot))

/-! ### Tree navigator (treeview.go)

The Go `TreeView` mutates `TreeNode`/`AgentTree` structs through pointers.
The embedding keeps the forest as a value inside the state and addresses a
node by its agent index together with the list of child indices from the
agent's roots down to the node (`addr`); mutating through a pointer becomes
rebuilding the forest along that address.  Flat rows carry these addresses
as ghost data in addition to the Go `flatNode` fields. -/

/-- One row of the flattened navigation list; embeds the Go `flatNode`.
`node` is `none` for an agent header row (a nil pointer in Go); for node
rows it is the subtree the row displays.  `agentIdx`/`addr` are the ghost
address of the row's agent and node (see the section comment).
`parentPath` embeds the Go slice of "parent was last sibling" flags; the
Go code builds it with `append` on a possibly-shared backing array, an
aliasing quirk that only affects the connector glyphs drawn left of a
label and none of the verified properties. -/
structure FlatNode where
  node : Option TreeNode
  agentIdx : Nat
  addr : List Nat
  isAgent : Bool
  indent : Nat
  isLastNode : Bool
  parentPath : List Bool

mutual

/-- Embeds `flattenNode(node, agent, indent, isLast, parentPath)`: emit the
node's own row, then (only when the node's `expanded` flag is true) the
rows of its children at `indent + 1`. -/
def flattenNode : TreeNode → Nat → List Nat → Nat → Bool → List Bool → List FlatNode
  | .mk i l children e d c tc an ia, ai, addr, indent, isLast, parentPath =>
    let path := parentPath ++ [isLast]
    let row : FlatNode :=
      { node := some (.mk i l children e d c tc an ia), agentIdx := ai,
        addr := addr, isAgent := false, indent := indent,
        isLastNode := isLast, parentPath := path }
    row :: (if e then flattenChildren children ai addr 0 indent path else [])

/-- The `for i, child := range node.Children` loop of `flattenNode` (also
used for the `for i, root := range agent.Roots` loop of
`rebuildFlatList`): child `i` is flattened at `base ++ [i]`, indent one
deeper, and is the last sibling exactly when nothing follows it. -/
def flattenChildren : List TreeNode → Nat → List Nat → Nat → Nat → List Bool → List FlatNode
  | [], _, _, _, _, _ => []
  | c :: cs, ai, base, j, indent, path =>
    flattenNode c ai (base ++ [j]) (indent + 1) cs.isEmpty path ++
      flattenChildren cs ai base (j + 1) indent path

end

/-- Embeds the walk of `rebuildFlatList`: one header row per agent, then,
when the agent's `expanded` flag is true, its roots flattened depth-first
(roots are flattened from indent 0 + 1 = 1 with empty parent path, exactly
the Go call `t.flattenNode(root, agent, 1, isLast, nil)`). -/
def flattenAgentsFrom : List AgentTree → Nat → List FlatNode
  | [], _ => []
  | agent :: rest, ai =>
    let header : FlatNode :=
      { node := none, agentIdx := ai, addr := [], isAgent := true,
        indent := 0, isLastNode := false, parentPath := [] }
    header ::
      ((if agent.expanded then flattenChildren agent.roots ai [] 0 0 [] else []) ++
        flattenAgentsFrom rest (ai + 1))

/-- Embeds the `TreeView` component state.  `selectedIdx`, `viewportStart`
and `viewportHeight` are Go `int`s, kept as `Int`. -/
structure TreeView where
  agents : List AgentTree
  flatNodes : List FlatNode
  selectedIdx : Int
  viewportStart : Int
  viewportHeight : Int
  width : Int

/-- Embeds `NewTreeView()`. -/
def newTreeView : TreeView :=
  { agents := [], flatNodes := [], selectedIdx := 0, viewportStart := 0,
    viewportHeight := 20, width := 80 }

/-- Embeds `rebuildFlatList()`: recompute the flat rows, then re-clamp the
selection (`if selectedIdx >= len { selectedIdx = len - 1 }; if selectedIdx
< 0 { selectedIdx = 0 }`). -/
def rebuildFlatList (t : TreeView) : TreeView :=
  let flat := flattenAgentsFrom t.agents 0
  let idx1 : Int :=
    if (flat.length : Int) ≤ t.selectedIdx then (flat.length : Int) - 1
    else t.selectedIdx
  let idx2 : Int := if idx1 < 0 then 0 else idx1
  { t with flatNodes := flat, selectedIdx := idx2 }

/-- Embeds `SetAgents(agents)`. -/
def setAgents (t : TreeView) (agents : List AgentTree) : TreeView :=
  rebuildFlatList { t with agents := agents }

/-- Embeds `ensureSelectedVisible()`: scroll minimally so that the selected
row lies inside the viewport window. -/
def ensureSelectedVisible (t : TreeView) : TreeView :=
  let vs1 :=
    if t.selectedIdx < t.viewportStart then t.selectedIdx else t.viewportStart
  let vs2 :=
    if vs1 + t.viewportHeight ≤ t.selectedIdx then
      t.selectedIdx - t.viewportHeight + 1
    else vs1
  { t with viewportStart := vs2 }

/-- Embeds `MoveUp()`: no wraparound, clamp at 0. -/
def moveUp (t : TreeView) : TreeView :=
  if 0 < t.selectedIdx then
    ensureSelectedVisible { t with selectedIdx := t.selectedIdx - 1 }
  else t

/-- Embeds `MoveDown()`: no wraparound, clamp at the last row. -/
def moveDown (t : TreeView) : TreeView :=
  if t.selectedIdx < (t.flatNodes.length : Int) - 1 then
    ensureSelectedVisible { t with selectedIdx := t.selectedIdx + 1 }
  else t

/-- In-place update of the element at an index (the slice write incurred by
mutating through a Go pointer into the list). -/
def listModify {α : Type} (f : α → α) : List α → Nat → List α
  | [], _ => []
  | x :: xs, 0 => f x :: xs
  | x :: xs, n + 1 => x :: listModify f xs n

/-- Replace the children of a node. -/
def TreeNode.withChildren (c : List TreeNode) : TreeNode → TreeNode
  | .mk i l _ e d ct tc an ia => .mk i l c e d ct tc an ia

/-- Rebuild a forest applying `f` to the node addressed by `addr`; this is
the embedding of a Go write through the `fn.node` pointer. -/
def updateNodeIn : List Nat → (TreeNode → TreeNode) → List TreeNode → List TreeNode
  | [], _, forest => forest
  | i :: rest, f, forest =>
    match rest with
    | [] => listModify f forest i
    | _ :: _ =>
      listModify (fun n => n.withChildren (updateNodeIn rest f n.children)) forest i

/-- Read the node addressed by `addr` (the embedding of dereferencing the
`fn.node` pointer). -/
def nodeAtAddr : List Nat → List TreeNode → Option TreeNode
  | [], _ => none
  | i :: rest, forest =>
    match forest.get? i with
    | none => none
    | some n =>
      match rest with
      | [] => some n
      | _ :: _ => nodeAtAddr rest n.children

/-- Row payload used for an out-of-range `getD`; never reached under the
selection invariant (Go would panic on a negative index, which the
invariant proved below rules out). -/
def defaultFlatNode : FlatNode :=
  { node := none, agentIdx := 0, addr := [], isAgent := false, indent := 0,
    isLastNode := false, parentPath := [] }

/-- Agent payload used for an out-of-range `getD`; never reached under the
selection invariant. -/
def defaultAgentTree : AgentTree :=
  { agentID := "", agentName := "", roots := [], nodeCount := 0, expanded := false }

/-- Flip a node's `expanded` flag at an address inside an agent's roots. -/
def toggleNodeAt (agents : List AgentTree) (ai : Nat) (addr : List Nat) :
    List AgentTree :=
  listModify
    (fun a => { a with
      roots := updateNodeIn addr (fun n => n.withExpanded (!n.expanded)) a.roots })
    agents ai

/-- Set a node's `expanded` flag at an address inside an agent's roots. -/
def setNodeExpandedAt (agents : List AgentTree) (ai : Nat) (addr : List Nat)
    (b : Bool) : List AgentTree :=
  listModify
    (fun a => { a with
      roots := updateNodeIn addr (fun n => n.withExpanded b) a.roots })
    agents ai

/-- Embeds `Toggle()`: guard `selectedIdx >= len(flatNodes)`, flip the
agent header's or the selected node's flag (nodes only when they have
children), then rebuild unconditionally. -/
def toggleOp (t : TreeView) : TreeView :=
  if (t.flatNodes.length : Int) ≤ t.selectedIdx then t
  else
    let fn := t.flatNodes.getD t.selectedIdx.toNat defaultFlatNode
    if fn.isAgent then
      rebuildFlatList
        { t with agents :=
            listModify (fun a => { a with expanded := !a.expanded }) t.agents fn.agentIdx }
    else
      match nodeAtAddr fn.addr ((t.agents.getD fn.agentIdx defaultAgentTree).roots) with
      | some n =>
        if 0 < n.children.length then
          rebuildFlatList { t with agents := toggleNodeAt t.agents fn.agentIdx fn.addr }
        else rebuildFlatList t
      | none => rebuildFlatList t

/-- Embeds `Expand()`: idempotent no-op when already expanded; rebuilds
only in the branches that change a flag. -/
def expandOp (t : TreeView) : TreeView :=
  if (t.flatNodes.length : Int) ≤ t.selectedIdx then t
  else
    let fn := t.flatNodes.getD t.selectedIdx.toNat defaultFlatNode
    if fn.isAgent then
      if !(t.agents.getD fn.agentIdx defaultAgentTree).expanded then
        rebuildFlatList
          { t with agents :=
              listModify (fun a => { a with expanded := true }) t.agents fn.agentIdx }
      else t
    else
      match nodeAtAddr fn.addr ((t.agents.getD fn.agentIdx defaultAgentTree).roots) with
      | some n =>
        if 0 < n.children.length && !n.expanded then
          rebuildFlatList
            { t with agents := setNodeExpandedAt t.agents fn.agentIdx fn.addr true }
        else t
      | none => t

/-- Embeds `Collapse()`: idempotent no-op when already collapsed; unlike
`Expand` there is no children check on the node branch. -/
def collapseOp (t : TreeView) : TreeView :=
  if (t.flatNodes.length : Int) ≤ t.selectedIdx then t
  else
    let fn := t.flatNodes.getD t.selectedIdx.toNat defaultFlatNode
    if fn.isAgent then
      if (t.agents.getD fn.agentIdx defaultAgentTree).expanded then
        rebuildFlatList
          { t with agents :=
              listModify (fun a => { a with expanded := false }) t.agents fn.agentIdx }
      else t
    else
      match nodeAtAddr fn.addr ((t.agents.getD fn.agentIdx defaultAgentTree).roots) with
      | some n =>
        if n.expanded then
          rebuildFlatList
            { t with agents := setNodeExpandedAt t.agents fn.agentIdx fn.addr false }
        else t
      | none => t

mutual

/-- Embeds `expandAllNodes(nodes)`. -/
def expandAllNodes : List TreeNode → List TreeNode
  | [] => []
  | n :: ns => expandAllNode n :: expandAllNodes ns

/-- Per-node body of `expandAllNodes`: set the flag and recurse. -/
def expandAllNode : TreeNode → TreeNode
  | .mk i l children _ d c tc an ia => .mk i l (expandAllNodes children) true d c tc an ia

end

mutual

/-- Embeds `collapseAllNodes(nodes)`. -/
def collapseAllNodes : List TreeNode → List TreeNode
  | [] => []
  | n :: ns => collapseAllNode n :: collapseAllNodes ns

/-- Per-node body of `collapseAllNodes`. -/
def collapseAllNode : TreeNode → TreeNode
  | .mk i l children _ d c tc an ia => .mk i l (collapseAllNodes children) false d c tc an ia

end

/-- Embeds `ExpandAll()`: every agent header and every node becomes
expanded, then the flat list is rebuilt. -/
def expandAllOp (t : TreeView) : TreeView :=
  rebuildFlatList
    { t with agents :=
        t.agents.map (fun a => { a with expanded := true, roots := expandAllNodes a.roots }) }

/-- Embeds `CollapseAll()`. -/
def collapseAllOp (t : TreeView) : TreeView :=
  rebuildFlatList
    { t with agents :=
        t.agents.map (fun a => { a with expanded := false, roots := collapseAllNodes a.roots }) }

/-- The navigator operations named by the spec's navigator invariant. -/
inductive NavOp where
  | expandAll
  | collapseAll
  | toggle
  | expand
  | collapse
  | moveUp
  | moveDown

/-- Dispatch one navigator operation. -/
def applyOp (t : TreeView) : NavOp → TreeView
  | .expandAll => expandAllOp t
  | .collapseAll => collapseAllOp t
  | .toggle => toggleOp t
  | .expand => expandOp t
  | .collapse => collapseOp t
  | .moveUp => moveUp t
  | .moveDown => moveDown t

/-- Run a sequence of navigator operations. -/
def applyOps (t : TreeView) (ops : List NavOp) : TreeView :=
  ops.foldl applyOp t

/-! ### Baseline differ (compare.go)

`computeDiffs` builds two Go maps `map[path]map[agentName]bool`, emits one
New item per path of the current map that is absent from the baseline map
(iterating the map in Go's unspecified order), then one Removed item per
path of the baseline map absent from the current one, and finally sorts
the list with `sort.Slice` by `(Type, Path)`.  Each emitted item has a
distinct `(Type, Path)` key (paths are map keys, hence unique per group),
so the sorted output is independent of the map iteration order: it is
exactly the New items in increasing path order followed by the Removed
items in increasing path order.  The embedding therefore represents each
path set as its canonical strictly-sorted duplicate-free list (`setStr`)
and produces the sorted output directly; string order is Go's byte-wise
order, which on ASCII data is the character-code order on `String.data`
used here. -/

/-- Embeds the Go `DiffType` constants (iota order `New, Removed, Modified,
Unchanged`). -/
inductive DiffType where
  | new
  | removed
  | modified
  | unchanged
deriving DecidableEq

/-- Numeric value of a `DiffType` constant (its Go iota), the sort key used
by `computeDiffs`. -/
def diffTypeRank : DiffType → Nat
  | .new => 0
  | .removed => 1
  | .modified => 2
  | .unchanged => 3

/-- Embeds the Go `DiffItem` struct. -/
structure DiffItem where
  path : String
  label : String
  type : DiffType
  agentName : String
  details : String
  agentCount : Nat
deriving DecidableEq

/-- Embeds `strings.Split(path, "/")` on the character list. -/
def splitSlash : List Char → List (List Char)
  | [] => [[]]
  | c :: cs =>
    let r := splitSlash cs
    if c = '/' then [] :: r
    else (c :: r.headD []) :: r.tail

/-- Embeds `pathToLabel(path)`: the last `/`-separated segment
(`strings.Split` never returns an empty slice, so the Go fallback of
returning `path` itself is unreachable and `getLast?` always hits its
`some` branch). -/
def pathToLabel (path : String) : String :=
  let parts := (splitSlash path.data).map (fun l => (⟨l⟩ : String))
  match parts.getLast? with
  | some s => s
  | none => path

mutual

/-- Embeds `extractPathsRecursive(data, prefix, paths)` (compare.go): every
object key contributes `prefix + "/" + key`, composite values recurse, and
scalar values additionally contribute the leaf path `path=value`; array
elements contribute `prefix[i]`, refined to `prefix + "/" + label` when the
element is an object with a `findLabel` hit, and then recurse.  The Go
object loop iterates a map in unspecified order; the embedding walks the
field list in order (the consumers below only use the resulting path
*set*). -/
def extractPathsJson : Json → String → List String
  | .obj fields, pfx => extractPathsObj fields pfx
  | .arr items, pfx => extractPathsArr items 0 pfx
  | _, _ => []

/-- Object branch of `extractPathsRecursive`. -/
def extractPathsObj : List (String × Json) → String → List String
  | [], _ => []
  | (key, value) :: rest, pfx =>
    let newPath := pfx ++ "/" ++ key
    (newPath ::
      (if value.isComposite then extractPathsJson value newPath
       else [newPath ++ "=" ++ goFormat value])) ++
      extractPathsObj rest pfx

/-- Array branch of `extractPathsRecursive`. -/
def extractPathsArr : List Json → Nat → String → List String
  | [], _, _ => []
  | item :: rest, i, pfx =>
    let newPath :=
      match item with
      | .obj f =>
        if findLabel f = "" then pfx ++ "[" ++ toString i ++ "]"
        else pfx ++ "/" ++ findLabel f
      | _ => pfx ++ "[" ++ toString i ++ "]"
    (newPath :: extractPathsJson item newPath) ++ extractPathsArr rest (i + 1) pfx

end

/-- Embeds `extractPaths(jsonStr)`: empty on parse failure, otherwise the
recursive extraction from the root with empty prefix. -/
def extractPaths (r : ExecutionResult) : List String :=
  match r.parsedAnswer with
  | none => []
  | some data => extractPathsJson data ""

/-- Insert a string into a strictly increasing duplicate-free list, keeping
it strictly increasing and duplicate-free (the canonical form of a Go
`map[string]bool` key set; comparison is byte-wise string order, embedded
as character-list order on `String.data`). -/
def insertStr (x : String) : List String → List String
  | [] => [x]
  | y :: ys =>
    if x = y then y :: ys
    else if x.data < y.data then x :: y :: ys
    else y :: insertStr x ys

/-- Canonical sorted duplicate-free form of a list of strings: the key set
of the Go map the list's elements were inserted into. -/
def setStr (l : List String) : List String :=
  l.foldr insertStr []

/-- The agent-name set the Go code accumulates at `paths[p]`: the names of
the results on the given side whose extracted paths include `p`, sorted
and deduplicated (`mapKeys` in compare.go sorts the keys with
`sort.Strings`). -/
def agentsAt (side : List ExecutionResult) (p : String) : List String :=
  setStr ((side.filter (fun r => (extractPaths r).contains p)).map (·.agentName))

/-- Build one `DiffItem` as `computeDiffs` does: comma-joined sorted
distinct agent names and their count (`AgentCount = len(agentList)`);
`Details` is never assigned in Go and stays empty. -/
def mkDiffItem (ty : DiffType) (side : List ExecutionResult) (p : String) : DiffItem :=
  let agentList := agentsAt side p
  { path := p, label := pathToLabel p, type := ty,
    agentName := String.intercalate ", " agentList, details := "",
    agentCount := agentList.length }

/-- The canonical path set of one side of the comparison. -/
def pathSetOf (side : List ExecutionResult) : List String :=
  setStr (side.flatMap extractPaths)

/-- Embeds `computeDiffs()` (compare.go): New items for current-only paths,
Removed items for baseline-only paths, output sorted by `(Type, Path)` —
see the section comment for why this list is exactly the Go result. -/
def computeDiffs (baselineResults currentResults : List ExecutionResult) :
    List DiffItem :=
  let basePaths := pathSetOf baselineResults
  let currPaths := pathSetOf currentResults
  (currPaths.filter (fun p => !basePaths.contains p)).map
      (mkDiffItem .new currentResults) ++
    (basePaths.filter (fun p => !currPaths.contains p)).map
      (mkDiffItem .removed baselineResults)

/-! ### Basic lemmas about the data model -/

@[simp] theorem TreeNode.id_mk (i l : String) (c : List TreeNode) (e : Bool)
    (d ct tc : Nat) (an : List String) (ia : Bool) :
    (TreeNode.mk i l c e d ct tc an ia).id = i := rfl

@[simp] theorem TreeNode.label_mk (i l : String) (c : List TreeNode) (e : Bool)
    (d ct tc : Nat) (an : List String) (ia : Bool) :
    (TreeNode.mk i l c e d ct tc an ia).label = l := rfl

@[simp] theorem TreeNode.children_mk (i l : String) (c : List TreeNode) (e : Bool)
    (d ct tc : Nat) (an : List String) (ia : Bool) :
    (TreeNode.mk i l c e d ct tc an ia).children = c := rfl

@[simp] theorem TreeNode.expanded_mk (i l : String) (c : List TreeNode) (e : Bool)
    (d ct tc : Nat) (an : List String) (ia : Bool) :
    (TreeNode.mk i l c e d ct tc an ia).expanded = e := rfl

@[simp] theorem TreeNode.depth_mk (i l : String) (c : List TreeNode) (e : Bool)
    (d ct tc : Nat) (an : List String) (ia : Bool) :
    (TreeNode.mk i l c e d ct tc an ia).depth = d := rfl

@[simp] theorem TreeNode.count_mk (i l : String) (c : List TreeNode) (e : Bool)
    (d ct tc : Nat) (an : List String) (ia : Bool) :
    (TreeNode.mk i l c e d ct tc an ia).count = ct := rfl

@[simp] theorem TreeNode.totalCount_mk (i l : String) (c : List TreeNode) (e : Bool)
    (d ct tc : Nat) (an : List String) (ia : Bool) :
    (TreeNode.mk i l c e d ct tc an ia).totalCount = tc := rfl

@[simp] theorem TreeNode.agentNames_mk (i l : String) (c : List TreeNode) (e : Bool)
    (d ct tc : Nat) (an : List String) (ia : Bool) :
    (TreeNode.mk i l c e d ct tc an ia).agentNames = an := rfl

@[simp] theorem TreeNode.isAnomaly_mk (i l : String) (c : List TreeNode) (e : Bool)
    (d ct tc : Nat) (an : List String) (ia : Bool) :
    (TreeNode.mk i l c e d ct tc an ia).isAnomaly = ia := rfl

/-- Membership of a node anywhere in a forest (a root or a descendant of a
root). -/
inductive InForest : TreeNode → List TreeNode → Prop where
  | head {x : TreeNode} {forest : List TreeNode} (hmem : x ∈ forest) :
      InForest x forest
  | child {x n : TreeNode} {forest : List TreeNode} (hmem : n ∈ forest)
      (h : InForest x n.children) : InForest x forest

theorem not_inForest_nil (x : TreeNode) : ¬ InForest x [] := by
  intro h
  cases h with
  | head hmem => cases hmem
  | child hmem _ => cases hmem

/-! ### Claim C1: anomaly threshold and the anomaly flag -/

/-- Every node anywhere in the output of the fuelled aggregated-tree
builder carries `isAnomaly = decide (count ≤ anomalyThreshold total)`. -/
theorem inForest_buildAggF_isAnomaly :
    ∀ (fuel : Nat) (paths : List (String × AggEntry)) (pfx : String)
      (total : Nat) (anomaliesOnly : Bool) (x : TreeNode),
      InForest x (buildAggregatedNodesF paths fuel pfx total anomaliesOnly) →
      x.isAnomaly = decide (x.count ≤ anomalyThreshold total) := by
  intro fuel
  induction fuel with
  | zero =>
    intro paths pfx total anom x h
    exact absurd h (by simpa [buildAggregatedNodesF] using not_inForest_nil x)
  | succ fuel ih =>
    intro paths pfx total anom x h
    cases h with
    | head hmem =>
      rw [buildAggregatedNodesF] at hmem
      simp only [List.mem_filterMap] at hmem
      obtain ⟨e, _, hg⟩ := hmem
      split at hg
      · exact absurd hg (by simp)
      · cases hg
        simp
    | child hmem hx =>
      rw [buildAggregatedNodesF] at hmem
      simp only [List.mem_filterMap] at hmem
      obtain ⟨e, _, hg⟩ := hmem
      split at hg
      · exact absurd hg (by simp)
      · cases hg
        exact ih paths e.1 total anom x (by simpa using hx)

/-- Sample accumulator for the concrete boundary checks of C1. -/
def c1Paths : List (String × AggEntry) :=
  [("/p", ⟨"p", 1, []⟩), ("/q", ⟨"q", 2, []⟩)]

/-- C1: for aggregation over `totalAgents` agent trees the anomaly
threshold is `max(1, totalAgents / 10)` (integer division) and a node is
marked anomalous iff its count is at most that threshold; for
`totalAgents = 10` (threshold 1) a count-1 path is anomalous and a count-2
path is not, and for `totalAgents = 5` the threshold is also 1 with the
same verdicts (shown below on an aggregated build of `c1Paths`, whose
entries have counts 1 and 2). -/
theorem claimC1 :
    (∀ total : Nat, anomalyThreshold total = max 1 (total / 10)) ∧
    (∀ (paths : List (String × AggEntry)) (pfx : String) (total : Nat)
        (anomaliesOnly : Bool) (x : TreeNode),
        InForest x (buildAggregatedNodes paths pfx total anomaliesOnly) →
        (x.isAnomaly = true ↔ x.count ≤ anomalyThreshold total)) ∧
    (anomalyThreshold 10 = 1 ∧
      (buildAggregatedNodes c1Paths "" 10 false).map
          (fun n => (n.label, n.count, n.isAnomaly)) =
        [("q", 2, false), ("p", 1, true)]) ∧
    (anomalyThreshold 5 = 1 ∧
      (buildAggregatedNodes c1Paths "" 5 false).map
          (fun n => (n.label, n.count, n.isAnomaly)) =
        [("q", 2, false), ("p", 1, true)]) := by
  refine ⟨?_, ?_, ⟨by decide, by decide⟩, ⟨by decide, by decide⟩⟩
  · intro total
    simp only [anomalyThreshold]
    split <;> omega
  · intro paths pfx total anom x h
    have := inForest_buildAggF_isAnomaly (paths.length + 1) paths pfx total anom x h
    simp only [this, decide_eq_true_eq]

/-- Witness for C1 at a concrete input: the single aggregated node built
from a count-1 entry with 10 total agents satisfies the anomaly iff. -/
theorem claimC1_witness :
    InForest (TreeNode.mk "/p" "p" [] false 0 1 10 [] true)
      (buildAggregatedNodes [("/p", ⟨"p", 1, []⟩)] "" 10 false) ∧
    ((TreeNode.mk "/p" "p" [] false 0 1 10 [] true).isAnomaly = true ↔
      (TreeNode.mk "/p" "p" [] false 0 1 10 [] true).count ≤ anomalyThreshold 10) :=
  ⟨InForest.head (List.Mem.head _),
    claimC1.2.1 [("/p", ⟨"p", 1, []⟩)] "" 10 false _
      (InForest.head (List.Mem.head _))⟩

/-! ### Claim C2: pruning under anomaliesOnly -/

theorem mem_insertByCountDesc (e f : String × AggEntry)
    (l : List (String × AggEntry)) :
    f ∈ insertByCountDesc e l ↔ f = e ∨ f ∈ l := by
  induction l with
  | nil => simp [insertByCountDesc]
  | cons g gs ih =>
    simp only [insertByCountDesc]
    split
    · simp [or_comm, or_assoc, or_left_comm]
    · simp only [List.mem_cons, ih]
      tauto

theorem mem_sortByCountDesc (f : String × AggEntry)
    (l : List (String × AggEntry)) :
    f ∈ sortByCountDesc l ↔ f ∈ l := by
  induction l with
  | nil => simp [sortByCountDesc]
  | cons g gs ih =>
    simp only [sortByCountDesc, List.foldr_cons] at ih ⊢
    rw [mem_insertByCountDesc, ih]
    simp

/-- Every node in the anomalies-only output of the fuelled builder is
anomalous (its count is at or below the threshold), at every depth. -/
theorem inForest_buildAggF_anomaliesOnly :
    ∀ (fuel : Nat) (paths : List (String × AggEntry)) (pfx : String)
      (total : Nat) (x : TreeNode),
      InForest x (buildAggregatedNodesF paths fuel pfx total true) →
      x.count ≤ anomalyThreshold total := by
  intro fuel
  induction fuel with
  | zero =>
    intro paths pfx total x h
    exact absurd h (by simpa [buildAggregatedNodesF] using not_inForest_nil x)
  | succ fuel ih =>
    intro paths pfx total x h
    cases h with
    | head hmem =>
      rw [buildAggregatedNodesF] at hmem
      simp only [List.mem_filterMap] at hmem
      obtain ⟨e, _, hg⟩ := hmem
      split at hg
      · exact absurd hg (by simp)
      · rename_i hcond
        cases hg
        simp only [Bool.true_and, Bool.not_eq_true', decide_eq_false_iff_not,
          Decidable.not_not] at hcond
        simpa using hcond
    | child hmem hx =>
      rw [buildAggregatedNodesF] at hmem
      simp only [List.mem_filterMap] at hmem
      obtain ⟨e, _, hg⟩ := hmem
      split at hg
      · exact absurd hg (by simp)
      · cases hg
        exact ih paths e.1 total x (by simpa using hx)

/-- Accumulator of the C2 counterexample: a non-anomalous parent `/a`
(count 10) with an anomalous child `/a/b` (count 1). -/
def c2Cex : List (String × AggEntry) :=
  [("/a", ⟨"a", 10, []⟩), ("/a/b", ⟨"b", 1, []⟩)]

/-- Counterexample to C2 as stated.  With `totalAgents = 20` the threshold
is 2, so the child entry `/a/b` (count 1) is anomalous while its parent
`/a` (count 10) is not.  The claim says a node's children are evaluated
for retention independently of whether the node itself was retained, which
would retain `/a/b`; but the anomalies-only build emits no node at all
(the pruned parent's subtree is never visited), even though the
anomalies-off build shows the child sitting under the parent. -/
theorem claimC2_counterexample :
    buildAggregatedNodes c2Cex "" 20 true = [] ∧
    anomalyThreshold 20 = 2 ∧
    (1 ≤ anomalyThreshold 20 ∧ ¬ 10 ≤ anomalyThreshold 20) ∧
    (buildAggregatedNodes c2Cex "" 20 false).map
        (fun n => (n.label, n.count, n.isAnomaly,
          n.children.map (fun c => (c.label, c.count, c.isAnomaly)))) =
      [("a", 10, false, [("b", 1, true)])] :=
  ⟨rfl, by decide, by decide, rfl⟩

/-- Entries for the retained/pruned boundary example of C2 (`totalAgents =
20`, threshold 2): `/x` has count 1, `/y` has count 10. -/
def c2Pair : List (String × AggEntry) :=
  [("/x", ⟨"x", 1, []⟩), ("/y", ⟨"y", 10, []⟩)]

/-- C2 as amended: with `anomaliesOnly` set, (a) every node that appears
anywhere in the output is anomalous; (b) a direct-child entry of the
prefix whose count is at or below the threshold is retained, independently
of its siblings (in particular independently of non-anomalous siblings);
(c) children of a retained node are built by the same rule from the
node's own path; and concretely, with `totalAgents = 20` the count-1 entry
is retained and the count-10 entry is pruned. -/
theorem claimC2_amended :
    (∀ (paths : List (String × AggEntry)) (pfx : String) (total : Nat)
        (x : TreeNode),
        InForest x (buildAggregatedNodes paths pfx total true) →
        x.count ≤ anomalyThreshold total) ∧
    (∀ (paths : List (String × AggEntry)) (pfx : String) (total : Nat)
        (p : String) (e : AggEntry),
        (p, e) ∈ paths → directChildOf pfx p = true →
        e.count ≤ anomalyThreshold total →
        ∃ x ∈ buildAggregatedNodes paths pfx total true,
          x.id = p ∧ x.count = e.count ∧ x.isAnomaly = true ∧
          x.children = buildAggregatedNodesF paths paths.length p total true) ∧
    (buildAggregatedNodes c2Pair "" 20 true).map
        (fun n => (n.label, n.count, n.isAnomaly)) = [("x", 1, true)] := by
  refine ⟨?_, ?_, by decide⟩
  · intro paths pfx total x h
    exact inForest_buildAggF_anomaliesOnly (paths.length + 1) paths pfx total x h
  · intro paths pfx total p e hmem hchild hcount
    rw [buildAggregatedNodes, buildAggregatedNodesF]
    refine ⟨TreeNode.mk p e.label
      (buildAggregatedNodesF paths paths.length p total true)
      false 0 e.count total e.agentNames
      (decide (e.count ≤ anomalyThreshold total)), ?_, ?_⟩
    · refine List.mem_filterMap.mpr ⟨(p, e), ?_, ?_⟩
      · exact (mem_sortByCountDesc _ _).mpr
          (List.mem_filter.mpr ⟨hmem, hchild⟩)
      · simp [hcount]
    · simp [hcount]

/-- Witness for C2 (amended) at concrete inputs: part (a) applied to the
node retained from `c2Pair`, and part (b) applied to the `/x` entry. -/
theorem claimC2_witness :
    ((TreeNode.mk "/x" "x" [] false 0 1 20 [] true).count ≤ anomalyThreshold 20) ∧
    (∃ x ∈ buildAggregatedNodes c2Pair "" 20 true,
      x.id = "/x" ∧ x.count = 1 ∧ x.isAnomaly = true ∧
      x.children = buildAggregatedNodesF c2Pair c2Pair.length "/x" 20 true) :=
  ⟨claimC2_amended.1 c2Pair "" 20 _ (InForest.head (List.Mem.head _)),
    claimC2_amended.2.1 c2Pair "" 20 "/x" ⟨"x", 1, []⟩ (List.Mem.head _)
      (by decide) (by decide)⟩

/-! ### Claim C3: path collection counts every visited node once -/

/-- Lookup of an accumulator entry by its exact key (the embedding of the
Go map read `paths[path]`). -/
def findEntry : List (String × AggEntry) → String → Option AggEntry
  | [], _ => none
  | (k, e) :: rest, p => if k = p then some e else findEntry rest p

/-- Count stored at a key (0 when absent, the zero value a fresh Go entry
starts from). -/
def entryCount (paths : List (String × AggEntry)) (p : String) : Nat :=
  (findEntry paths p).elim 0 (·.count)

/-- Agent-name list stored at a key (empty when absent). -/
def entryNames (paths : List (String × AggEntry)) (p : String) : List String :=
  (findEntry paths p).elim [] (·.agentNames)

mutual

/-- Number of nodes in a forest whose label-path (relative to `pfx`) is
exactly `p` — the specification-side count the accumulator should hold. -/
def countOccForest : List TreeNode → String → String → Nat
  | [], _, _ => 0
  | n :: ns, pfx, p => countOccNode n pfx p + countOccForest ns pfx p

/-- Number of nodes in one subtree whose label-path is exactly `p`. -/
def countOccNode : TreeNode → String → String → Nat
  | .mk _ lbl children _ _ _ _ _ _, pfx, p =>
    (if pfx ++ "/" ++ lbl = p then 1 else 0) +
      countOccForest children (pfx ++ "/" ++ lbl) p

end

/-- `touchPath` increments exactly the touched key's count by one and
appends exactly one copy of the agent name there, leaving every other key
untouched. -/
theorem touchPath_spec (paths : List (String × AggEntry)) (q lbl agent p : String) :
    entryCount (touchPath paths q lbl agent) p =
      entryCount paths p + (if q = p then 1 else 0) ∧
    entryNames (touchPath paths q lbl agent) p =
      entryNames paths p ++ (if q = p then [agent] else []) := by
  induction paths with
  | nil =>
    by_cases h : q = p <;>
      simp [touchPath, findEntry, entryCount, entryNames, h]
  | cons ke rest ih =>
    obtain ⟨k, e⟩ := ke
    simp only [touchPath]
    by_cases hkq : k = q
    · rw [if_pos hkq]
      by_cases hp : k = p
      · have hqp : q = p := by rw [← hkq]; exact hp
        simp [findEntry, entryCount, entryNames, hp, hqp]
      · have hqp : ¬ q = p := by rw [← hkq]; exact hp
        simp [findEntry, entryCount, entryNames, hp, hqp]
    · rw [if_neg hkq]
      by_cases hp : k = p
      · have hqp : ¬ q = p := fun h => hkq (by rw [hp, h])
        simp [findEntry, entryCount, entryNames, hp, hqp]
      · simpa [entryCount, entryNames, findEntry, hp] using ih

/-- Size-bounded form of the `collectPaths` accounting lemma, proved by
strong induction on the forest size (the recursion of `collectPaths`
descends both into children and along the sibling list). -/
theorem collectPaths_spec_aux :
    ∀ (k : Nat) (nodes : List TreeNode), sizeOf nodes ≤ k →
      ∀ (pfx agent : String) (paths : List (String × AggEntry)) (p : String),
        entryCount (collectPaths nodes pfx agent paths) p =
          entryCount paths p + countOccForest nodes pfx p ∧
        entryNames (collectPaths nodes pfx agent paths) p =
          entryNames paths p ++ List.replicate (countOccForest nodes pfx p) agent := by
  intro k
  induction k with
  | zero =>
    intro nodes hsz
    exfalso
    cases nodes <;> simp at hsz
  | succ k ih =>
    intro nodes hsz pfx agent paths p
    match nodes with
    | [] => simp [collectPaths, countOccForest]
    | node :: rest =>
      match node with
      | .mk i lbl children e d c tc an ia =>
        simp only [List.cons.sizeOf_spec, TreeNode.mk.sizeOf_spec] at hsz
        have hszrest : sizeOf rest ≤ k := by omega
        have hszch : sizeOf children ≤ k := by omega
        have ht := touchPath_spec paths (pfx ++ "/" ++ lbl) lbl agent p
        rw [collectPaths]
        match children, hszch with
        | [], _ =>
          have h2 := ih rest hszrest pfx agent
            (collectPathsNode (.mk i lbl [] e d c tc an ia) pfx agent paths) p
          simp only [collectPathsNode] at h2 ⊢
          refine ⟨?_, ?_⟩
          · rw [h2.1, ht.1]
            simp only [countOccForest, countOccNode]
            by_cases hp : pfx ++ "/" ++ lbl = p <;> · simp [hp]; try omega
          · rw [h2.2, ht.2]
            simp only [countOccForest, countOccNode]
            by_cases hp : pfx ++ "/" ++ lbl = p <;>
              simp [hp, List.replicate_add, List.replicate_succ]
        | c' :: cs', hszch =>
          have hch := ih (c' :: cs') hszch (pfx ++ "/" ++ lbl) agent
            (touchPath paths (pfx ++ "/" ++ lbl) lbl agent) p
          have h2 := ih rest hszrest pfx agent
            (collectPathsNode (.mk i lbl (c' :: cs') e d c tc an ia) pfx agent paths) p
          simp only [collectPathsNode] at h2 ⊢
          refine ⟨?_, ?_⟩
          · rw [h2.1, hch.1, ht.1]
            simp only [countOccForest, countOccNode]
            by_cases hp : pfx ++ "/" ++ lbl = p <;> simp [hp] <;> omega
          · rw [h2.2, hch.2, ht.2]
            simp only [countOccForest, countOccNode, List.append_assoc]
            by_cases hp : pfx ++ "/" ++ lbl = p
            · simp only [if_pos hp, List.replicate_add, List.replicate_one,
                List.append_assoc]
            · simp only [if_neg hp, List.replicate_add, List.nil_append,
                List.append_assoc, Nat.zero_add]

/-- Walking a forest with `collectPaths` adds, at every key `p`, exactly
the number of visited nodes whose label-path is `p`, and appends exactly
that many copies of the agent's name. -/
theorem collectPaths_spec (nodes : List TreeNode) (pfx agent : String)
    (paths : List (String × AggEntry)) (p : String) :
    entryCount (collectPaths nodes pfx agent paths) p =
      entryCount paths p + countOccForest nodes pfx p ∧
    entryNames (collectPaths nodes pfx agent paths) p =
      entryNames paths p ++ List.replicate (countOccForest nodes pfx p) agent :=
  collectPaths_spec_aux (sizeOf nodes) nodes (Nat.le_refl _) pfx agent paths p

/-- Folding `collectPaths` over a list of agent trees from an arbitrary
accumulator adds each tree's occurrence count and name copies in order. -/
theorem aggregateFold_spec (trees : List AgentTree)
    (acc : List (String × AggEntry)) (p : String) :
    entryCount (trees.foldl (fun paths t =>
        collectPaths t.roots "" t.agentName paths) acc) p =
      entryCount acc p + (trees.map (fun t => countOccForest t.roots "" p)).sum ∧
    entryNames (trees.foldl (fun paths t =>
        collectPaths t.roots "" t.agentName paths) acc) p =
      entryNames acc p ++ trees.flatMap
        (fun t => List.replicate (countOccForest t.roots "" p) t.agentName) := by
  induction trees generalizing acc with
  | nil => simp
  | cons t ts ih =>
    have h1 := collectPaths_spec t.roots "" t.agentName acc p
    have h2 := ih (collectPaths t.roots "" t.agentName acc)
    simp only [List.foldl_cons, List.map_cons, List.sum_cons, List.flatMap_cons]
    refine ⟨?_, ?_⟩
    · rw [h2.1, h1.1]
      omega
    · rw [h2.2, h1.2, List.append_assoc]

/-- A tree with two identical label-paths for one agent, the concrete
duplicate-contribution case of C3. -/
def c3Tree : AgentTree :=
  { agentID := "1", agentName := "ag",
    roots := [.mk "1" "dup" [] false 0 0 0 [] false,
              .mk "2" "dup" [] false 0 0 0 [] false],
    nodeCount := 2, expanded := false }

/-- C3: for every node visited in every agent's tree, the accumulator
entry at the node's label-path (`parent path ++ "/" ++ label`) is
incremented by exactly one and the agent's name appended without
deduplication — the count at any key equals the number of visited nodes
with that label-path, and the name list holds one copy per such node;
in particular an agent with `k` nodes of identical label-path contributes
`k` counts and `k` name copies (shown for `k = 2` on `c3Tree`). -/
theorem claimC3 :
    (∀ (nodes : List TreeNode) (pfx agent : String)
        (paths : List (String × AggEntry)) (p : String),
        entryCount (collectPaths nodes pfx agent paths) p =
          entryCount paths p + countOccForest nodes pfx p ∧
        entryNames (collectPaths nodes pfx agent paths) p =
          entryNames paths p ++ List.replicate (countOccForest nodes pfx p) agent) ∧
    (∀ (trees : List AgentTree) (p : String),
        entryCount (aggregatePathCounts trees) p =
          (trees.map (fun t => countOccForest t.roots "" p)).sum ∧
        entryNames (aggregatePathCounts trees) p =
          trees.flatMap
            (fun t => List.replicate (countOccForest t.roots "" p) t.agentName)) ∧
    (entryCount (aggregatePathCounts [c3Tree]) "/dup" = 2 ∧
      entryNames (aggregatePathCounts [c3Tree]) "/dup" = ["ag", "ag"]) := by
  refine ⟨collectPaths_spec, ?_, by decide, by decide⟩
  intro trees p
  have h := aggregateFold_spec trees [] p
  simpa [aggregatePathCounts, entryCount, entryNames, findEntry] using h

/-! ### Claim C5: navigator invariant -/

/-- Along a relative child-index path inside a subtree, every node strictly
above the path's endpoint is expanded (nothing is required of the endpoint
itself). -/
def relOk : TreeNode → List Nat → Prop
  | _, [] => True
  | node, j :: rest =>
    node.expanded = true ∧ ∃ c, node.children.get? j = some c ∧ relOk c rest

/-- A node address into a forest is reachable with every proper ancestor
expanded: it selects a root and continues with every intermediate node
expanded. -/
def ancestorsOk (forest : List TreeNode) : List Nat → Prop
  | [] => False
  | j :: rest => ∃ c, forest.get? j = some c ∧ relOk c rest

/-- Selection-index part of the navigator invariant: 0 on an empty flat
list, otherwise within `[0, len - 1]`. -/
def selIdxInv (t : TreeView) : Prop :=
  (t.flatNodes = [] → t.selectedIdx = 0) ∧
  (t.flatNodes ≠ [] →
    0 ≤ t.selectedIdx ∧ t.selectedIdx ≤ (t.flatNodes.length : Int) - 1)

/-- Full navigator state invariant: the selection is clamped and the flat
list is exactly the rebuild of the current forest. -/
def stateInv (t : TreeView) : Prop :=
  selIdxInv t ∧ t.flatNodes = flattenAgentsFrom t.agents 0

theorem ensureSelectedVisible_fields (t : TreeView) :
    (ensureSelectedVisible t).flatNodes = t.flatNodes ∧
    (ensureSelectedVisible t).selectedIdx = t.selectedIdx ∧
    (ensureSelectedVisible t).agents = t.agents := by
  simp [ensureSelectedVisible]

/-- Rebuilding always (re-)establishes the full state invariant, whatever
state it starts from. -/
theorem stateInv_rebuildFlatList (t : TreeView) : stateInv (rebuildFlatList t) := by
  refine ⟨⟨?_, ?_⟩, rfl⟩
  · intro hflat
    simp only [rebuildFlatList] at hflat ⊢
    rw [hflat]
    simp only [List.length_nil, Nat.cast_zero]
    rw [hflat] at *
    split <;> split <;> omega
  · intro hflat
    simp only [rebuildFlatList] at hflat ⊢
    have hlen : 0 < (flattenAgentsFrom t.agents 0).length :=
      List.length_pos.mpr hflat
    constructor <;> · split <;> split <;> omega

/-- `moveUp` keeps the state invariant. -/
theorem stateInv_moveUp (t : TreeView) (h : stateInv t) : stateInv (moveUp t) := by
  obtain ⟨⟨h0, hr⟩, hfl⟩ := h
  rw [moveUp]
  split
  · rename_i hpos
    simp only [ensureSelectedVisible]
    refine ⟨⟨?_, ?_⟩, hfl⟩
    · intro hflat
      have := h0 hflat
      omega
    · intro hflat
      have := hr hflat
      simp only
      omega
  · exact ⟨⟨h0, hr⟩, hfl⟩

/-- `moveDown` keeps the state invariant. -/
theorem stateInv_moveDown (t : TreeView) (h : stateInv t) : stateInv (moveDown t) := by
  obtain ⟨⟨h0, hr⟩, hfl⟩ := h
  rw [moveDown]
  split
  · rename_i hlt
    simp only [ensureSelectedVisible]
    refine ⟨⟨?_, ?_⟩, hfl⟩
    · intro hflat
      rw [hflat] at hlt
      simp only [List.length_nil, Nat.cast_zero] at hlt
      have := h0 hflat
      omega
    · intro hflat
      have := hr hflat
      simp only
      omega
  · exact ⟨⟨h0, hr⟩, hfl⟩

/-- Every navigator operation keeps the state invariant. -/
theorem stateInv_applyOp (t : TreeView) (op : NavOp) (h : stateInv t) :
    stateInv (applyOp t op) := by
  cases op with
  | expandAll => exact stateInv_rebuildFlatList _
  | collapseAll => exact stateInv_rebuildFlatList _
  | toggle =>
    show stateInv (toggleOp t)
    simp only [toggleOp]
    split
    · exact h
    · split
      · exact stateInv_rebuildFlatList _
      · split
        · split
          · exact stateInv_rebuildFlatList _
          · exact stateInv_rebuildFlatList _
        · exact stateInv_rebuildFlatList _
  | expand =>
    show stateInv (expandOp t)
    simp only [expandOp]
    split
    · exact h
    · split
      · split
        · exact stateInv_rebuildFlatList _
        · exact h
      · split
        · split
          · exact stateInv_rebuildFlatList _
          · exact h
        · exact h
  | collapse =>
    show stateInv (collapseOp t)
    simp only [collapseOp]
    split
    · exact h
    · split
      · split
        · exact stateInv_rebuildFlatList _
        · exact h
      · split
        · split
          · exact stateInv_rebuildFlatList _
          · exact h
        · exact h
  | moveUp => exact stateInv_moveUp t h
  | moveDown => exact stateInv_moveDown t h

theorem stateInv_applyOps (t : TreeView) (ops : List NavOp) (h : stateInv t) :
    stateInv (applyOps t ops) := by
  induction ops generalizing t with
  | nil => exact h
  | cons op rest ih => exact ih _ (stateInv_applyOp t op h)

/-- Membership facts about `flattenNode`/`flattenChildren`, bounded by the
forest size: node rows carry the agent index they were flattened under, an
address extending the base address, and a relative path on which every
strict ancestor is expanded. -/
theorem flatten_mem_aux :
    ∀ k : Nat,
      (∀ node : TreeNode, sizeOf node ≤ k →
        ∀ (ai : Nat) (addr : List Nat) (ind : Nat) (isLast : Bool)
          (pp : List Bool) (fn : FlatNode),
          fn ∈ flattenNode node ai addr ind isLast pp →
          fn.isAgent = false ∧ fn.agentIdx = ai ∧
            ∃ tail, fn.addr = addr ++ tail ∧ relOk node tail) ∧
      (∀ l : List TreeNode, sizeOf l ≤ k →
        ∀ (ai : Nat) (base : List Nat) (j ind : Nat) (pp : List Bool)
          (fn : FlatNode),
          fn ∈ flattenChildren l ai base j ind pp →
          fn.isAgent = false ∧ fn.agentIdx = ai ∧
            ∃ k0 c tail, l.get? k0 = some c ∧
              fn.addr = base ++ [j + k0] ++ tail ∧ relOk c tail) := by
  intro k
  induction k with
  | zero =>
    constructor
    · intro node hsz
      exfalso
      cases node with
      | mk i l c e d ct tc an ia =>
        simp [TreeNode.mk.sizeOf_spec] at hsz
    · intro l hsz
      exfalso
      cases l <;> simp [List.cons.sizeOf_spec] at hsz
  | succ k ih =>
    constructor
    · intro node hsz ai addr ind isLast pp fn hfn
      match node, hsz with
      | .mk i l children e d ct tc an ia, hsz =>
        simp only [TreeNode.mk.sizeOf_spec] at hsz
        have hszch : sizeOf children ≤ k := by omega
        rw [flattenNode] at hfn
        rcases List.mem_cons.mp hfn with hrow | hrest
        · subst hrow
          exact ⟨rfl, rfl, [], by simp, trivial⟩
        · rcases he : e with _ | _
          · rw [he] at hrest
            simp at hrest
          · rw [he] at hrest
            simp only [if_pos rfl] at hrest
            obtain ⟨_, _, k0, c, tail, hget, haddr, hrel⟩ :=
              (ih.2 children hszch ai addr 0 ind (pp ++ [isLast]) fn) hrest
            refine ⟨‹_›, ‹_›, k0 :: tail, ?_, ?_⟩
            · rw [haddr]
              simp
            · exact ⟨by simp, c, by simpa using hget, hrel⟩
    · intro l hsz ai base j ind pp fn hfn
      match l, hsz with
      | [], _ => simp [flattenChildren] at hfn
      | c :: cs, hsz =>
        simp only [List.cons.sizeOf_spec] at hsz
        have hszc : sizeOf c ≤ k := by omega
        have hszcs : sizeOf cs ≤ k := by omega
        rw [flattenChildren] at hfn
        rcases List.mem_append.mp hfn with hleft | hright
        · obtain ⟨h1, h2, tail, haddr, hrel⟩ :=
            (ih.1 c hszc ai (base ++ [j]) (ind + 1) cs.isEmpty pp fn) hleft
          exact ⟨h1, h2, 0, c, tail, rfl, by simpa using haddr, hrel⟩
        · obtain ⟨h1, h2, k0, c', tail, hget, haddr, hrel⟩ :=
            (ih.2 cs hszcs ai base (j + 1) ind pp fn) hright
          refine ⟨h1, h2, k0 + 1, c', tail, by simpa using hget, ?_, hrel⟩
          rw [haddr]
          have : j + 1 + k0 = j + (k0 + 1) := by omega
          rw [this]

/-- Every non-header row produced by the rebuild walk points at an agent
that exists and is expanded, through an address whose strict ancestors are
all expanded. -/
theorem flattenAgentsFrom_mem (agents : List AgentTree) :
    ∀ (ai0 : Nat) (fn : FlatNode), fn ∈ flattenAgentsFrom agents ai0 →
      fn.isAgent = false →
      ∃ idx a, agents.get? idx = some a ∧ fn.agentIdx = ai0 + idx ∧
        a.expanded = true ∧ ancestorsOk a.roots fn.addr := by
  induction agents with
  | nil =>
    intro ai0 fn hfn
    simp [flattenAgentsFrom] at hfn
  | cons a rest ih =>
    intro ai0 fn hfn hnode
    rw [flattenAgentsFrom] at hfn
    rcases List.mem_cons.mp hfn with hrow | hrest
    · rw [hrow] at hnode
      simp at hnode
    · rcases List.mem_append.mp hrest with hleft | hright
      · rcases he : a.expanded with _ | _
        · rw [he] at hleft
          simp at hleft
        · rw [he] at hleft
          simp only [if_pos rfl] at hleft
          obtain ⟨_, hidx, k0, c, tail, hget, haddr, hrel⟩ :=
            ((flatten_mem_aux (sizeOf a.roots)).2 a.roots (Nat.le_refl _)
              ai0 [] 0 0 [] fn) hleft
          refine ⟨0, a, rfl, by omega, he, ?_⟩
          rw [haddr]
          simp only [List.nil_append, Nat.zero_add]
          exact ⟨c, hget, hrel⟩
      · obtain ⟨idx, a', hget, hidx, hexp, hanc⟩ := ih (ai0 + 1) fn hright hnode
        exact ⟨idx + 1, a', by simpa using hget, by omega, hexp, hanc⟩

/-- C5: after any sequence of `expandAll`, `collapseAll`, `toggle`,
`expand`, `collapse`, `moveUp`, `moveDown` operations on a tree view built
over any forest, the selection index is 0 when the flat list is empty and
lies within `[0, len(flatList) - 1]` otherwise, and the flat list contains
no row for a node any of whose ancestors — its agent header included — is
collapsed. -/
theorem claimC5 (agents : List AgentTree) (ops : List NavOp) :
    ((applyOps (setAgents newTreeView agents) ops).flatNodes = [] →
        (applyOps (setAgents newTreeView agents) ops).selectedIdx = 0) ∧
    ((applyOps (setAgents newTreeView agents) ops).flatNodes ≠ [] →
        0 ≤ (applyOps (setAgents newTreeView agents) ops).selectedIdx ∧
        (applyOps (setAgents newTreeView agents) ops).selectedIdx ≤
          ((applyOps (setAgents newTreeView agents) ops).flatNodes.length : Int) - 1) ∧
    (∀ fn ∈ (applyOps (setAgents newTreeView agents) ops).flatNodes,
        fn.isAgent = false →
        ∃ a, (applyOps (setAgents newTreeView agents) ops).agents.get? fn.agentIdx =
            some a ∧ a.expanded = true ∧ ancestorsOk a.roots fn.addr) := by
  have hinv : stateInv (applyOps (setAgents newTreeView agents) ops) :=
    stateInv_applyOps _ ops (stateInv_rebuildFlatList _)
  obtain ⟨⟨h0, hr⟩, hfl⟩ := hinv
  refine ⟨h0, hr, ?_⟩
  intro fn hfn hnode
  rw [hfl] at hfn
  obtain ⟨idx, a, hget, hidx, hexp, hanc⟩ :=
    flattenAgentsFrom_mem _ 0 fn hfn hnode
  refine ⟨a, ?_, hexp, hanc⟩
  rw [hidx]
  simpa using hget

/-- A two-level agent tree used to instantiate the navigator invariant. -/
def c5Agent : AgentTree :=
  { agentID := "1", agentName := "ag",
    roots := [.mk "r" "root" [.mk "c" "child" [] false 1 0 0 [] false]
      false 0 0 0 [] false],
    nodeCount := 2, expanded := false }

/-- The navigator state after `SetAgents([c5Agent])` then `ExpandAll`. -/
def c5State : TreeView :=
  applyOps (setAgents newTreeView [c5Agent]) [.expandAll]

/-- The root node's row in `c5State` (index 1, after the header). -/
def c5Row : FlatNode :=
  c5State.flatNodes.getD 1 defaultFlatNode

/-- Witness for C5 at concrete inputs: after expanding everything in the
one-agent forest, the selection index is in range and the root node's row
points at an expanded agent through an all-expanded ancestor chain. -/
theorem claimC5_witness :
    (0 ≤ c5State.selectedIdx ∧
      c5State.selectedIdx ≤ (c5State.flatNodes.length : Int) - 1) ∧
    (∃ a, c5State.agents.get? c5Row.agentIdx = some a ∧ a.expanded = true ∧
      ancestorsOk a.roots c5Row.addr) :=
  ⟨(claimC5 [c5Agent] [.expandAll]).2.1 (List.cons_ne_nil _ _),
    (claimC5 [c5Agent] [.expandAll]).2.2 c5Row
      (List.Mem.tail _ (List.Mem.head _)) rfl⟩

/-! ### Claim C10: ExpandAll makes every node visible -/

mutual

/-- Addresses (relative child-index paths) of every node of a subtree, in
depth-first order, the node itself first (address `[]`). -/
def nodeAddrs : TreeNode → List (List Nat)
  | .mk _ _ children _ _ _ _ _ _ => [] :: forestAddrs children 0

/-- Addresses of every node of a forest whose first root has index `j`. -/
def forestAddrs : List TreeNode → Nat → List (List Nat)
  | [], _ => []
  | n :: ns, j => (nodeAddrs n).map (fun ad => j :: ad) ++ forestAddrs ns (j + 1)

end

mutual

/-- Number of nodes of a forest. -/
def sizeForest : List TreeNode → Nat
  | [] => 0
  | n :: ns => sizeNode n + sizeForest ns

/-- Number of nodes of a subtree. -/
def sizeNode : TreeNode → Nat
  | .mk _ _ children _ _ _ _ _ _ => 1 + sizeForest children

end

/-- The identifying tag of a flat row: header flag, agent index, node
address. -/
def rowTag (fn : FlatNode) : Bool × Nat × List Nat :=
  (fn.isAgent, fn.agentIdx, fn.addr)

/-- Comparison definition for C10, following the spec's words: the row
tags of one header per agent followed by one node row for every node of
that agent's forest, depth-first. -/
def allRowsSpec : List AgentTree → Nat → List (Bool × Nat × List Nat)
  | [], _ => []
  | a :: rest, ai =>
    (true, ai, []) ::
      ((forestAddrs a.roots 0).map (fun ad => (false, ai, ad)) ++
        allRowsSpec rest (ai + 1))

/-- `forestAddrs` has one entry per node. -/
theorem length_forestAddrs_aux :
    ∀ (k : Nat) (l : List TreeNode), sizeOf l ≤ k →
      ∀ j : Nat, (forestAddrs l j).length = sizeForest l := by
  intro k
  induction k with
  | zero =>
    intro l hsz
    exfalso
    cases l <;> simp [List.cons.sizeOf_spec] at hsz
  | succ k ih =>
    intro l hsz j
    match l, hsz with
    | [], _ => simp [forestAddrs, sizeForest]
    | n :: ns, hsz =>
      match n, hsz with
      | .mk i lb children e d c tc an ia, hsz =>
        simp only [List.cons.sizeOf_spec, TreeNode.mk.sizeOf_spec] at hsz
        have h1 : sizeOf children ≤ k := by omega
        have h2 : sizeOf ns ≤ k := by omega
        rw [forestAddrs, nodeAddrs]
        simp only [List.length_append, List.length_map, List.length_cons,
          sizeForest, sizeNode]
        rw [ih children h1 0, ih ns h2 (j + 1)]
        omega

/-- Flattening a fully expanded subtree/forest yields exactly the row tags
of every node, addresses extended from the base. -/
theorem flatten_expandAll_aux :
    ∀ k : Nat,
      (∀ node : TreeNode, sizeOf node ≤ k →
        ∀ (ai : Nat) (addr : List Nat) (ind : Nat) (isLast : Bool)
          (pp : List Bool),
          (flattenNode (expandAllNode node) ai addr ind isLast pp).map rowTag =
            (nodeAddrs node).map (fun ad => (false, ai, addr ++ ad))) ∧
      (∀ l : List TreeNode, sizeOf l ≤ k →
        ∀ (ai : Nat) (base : List Nat) (j ind : Nat) (pp : List Bool),
          (flattenChildren (expandAllNodes l) ai base j ind pp).map rowTag =
            (forestAddrs l j).map (fun ad => (false, ai, base ++ ad))) := by
  intro k
  induction k with
  | zero =>
    constructor
    · intro node hsz
      exfalso
      cases node with
      | mk i l c e d ct tc an ia => simp [TreeNode.mk.sizeOf_spec] at hsz
    · intro l hsz
      exfalso
      cases l <;> simp [List.cons.sizeOf_spec] at hsz
  | succ k ih =>
    constructor
    · intro node hsz ai addr ind isLast pp
      match node, hsz with
      | .mk i l children e d ct tc an ia, hsz =>
        simp only [TreeNode.mk.sizeOf_spec] at hsz
        have hszch : sizeOf children ≤ k := by omega
        rw [expandAllNode, flattenNode, nodeAddrs]
        simp only [if_pos rfl, if_true, List.map_cons, List.map_append, rowTag]
        rw [ih.2 children hszch ai addr 0 ind (pp ++ [isLast])]
        simp
    · intro l hsz ai base j ind pp
      match l, hsz with
      | [], _ => simp [expandAllNodes, flattenChildren, forestAddrs]
      | n :: ns, hsz =>
        simp only [List.cons.sizeOf_spec] at hsz
        have hszn : sizeOf n ≤ k := by omega
        have hszns : sizeOf ns ≤ k := by omega
        rw [expandAllNodes, flattenChildren, forestAddrs]
        rw [List.map_append, List.map_append]
        rw [ih.1 n hszn ai (base ++ [j]) (ind + 1)
          (expandAllNodes ns).isEmpty pp, ih.2 ns hszns ai base (j + 1) ind pp]
        rw [List.map_map]
        congr 1
        apply List.map_congr_left
        intro ad _
        simp

/-- Flattening the fully expanded agent list yields exactly the spec's row
enumeration. -/
theorem flattenAgentsFrom_expandAll (agents : List AgentTree) :
    ∀ ai : Nat,
      (flattenAgentsFrom (agents.map (fun a =>
          { a with expanded := true, roots := expandAllNodes a.roots })) ai).map
        rowTag = allRowsSpec agents ai := by
  induction agents with
  | nil => intro ai; simp [flattenAgentsFrom, allRowsSpec]
  | cons a rest ih =>
    intro ai
    simp only [List.map_cons]
    rw [flattenAgentsFrom, allRowsSpec]
    simp only [List.map_cons, List.map_append, rowTag, if_pos rfl, if_true]
    rw [ih (ai + 1)]
    rw [(flatten_expandAll_aux (sizeOf a.roots)).2 a.roots (Nat.le_refl _)
      ai [] 0 0 []]
    simp

/-- The spec enumeration has one header entry per agent plus one node
entry per node. -/
theorem length_allRowsSpec (agents : List AgentTree) :
    ∀ ai : Nat, (allRowsSpec agents ai).length =
      agents.length + (agents.map (fun a => sizeForest a.roots)).sum := by
  induction agents with
  | nil => intro ai; simp [allRowsSpec]
  | cons a rest ih =>
    intro ai
    rw [allRowsSpec]
    simp only [List.length_cons, List.length_append, List.length_map,
      List.map_cons, List.sum_cons]
    rw [length_forestAddrs_aux (sizeOf a.roots) a.roots (Nat.le_refl _) 0,
      ih (ai + 1)]
    omega

/-- C10: after `ExpandAll`, the rebuilt flat list consists of exactly one
header row per agent tree followed, agent by agent, by one row for every
node of that agent's forest — every node becomes visible, and the row
count is the number of agents plus the total node count. -/
theorem claimC10 (t : TreeView) :
    ((expandAllOp t).flatNodes).map rowTag = allRowsSpec t.agents 0 ∧
    ((expandAllOp t).flatNodes).length =
      t.agents.length + (t.agents.map (fun a => sizeForest a.roots)).sum := by
  have hflat : (expandAllOp t).flatNodes =
      flattenAgentsFrom (t.agents.map (fun a =>
        { a with expanded := true, roots := expandAllNodes a.roots })) 0 := rfl
  have hmain := flattenAgentsFrom_expandAll t.agents 0
  constructor
  · rw [hflat]
    exact hmain
  · have hlen := congrArg List.length hmain
    simp only [List.length_map] at hlen
    rw [hflat, hlen, length_allRowsSpec t.agents 0]

/-! ### Claim C7: malformed JSON degrades to a single leaf, locally -/

/-- C7: when an agent's answer fails to parse, its tree is exactly one
root leaf (no children) labelled with the raw text truncated to 100
characters, with node count 1; the truncation never exceeds 100 characters
and leaves short newline-free text unchanged; and each agent's tree is
computed independently from its own result alone (the tree list is a map),
so no other agent is affected and no error is propagated. -/
theorem claimC7 :
    (∀ res : ExecutionResult, res.parsedAnswer = none →
      buildAgentTree res =
        { agentID := res.agentID, agentName := res.agentName,
          roots := [.mk "0" (truncateString res.answerJSON 100) [] false 0 0 0 [] false],
          nodeCount := 1, expanded := false }) ∧
    (∀ s : String, (truncateString s 100).length ≤ 100) ∧
    (∀ s : String, s.length ≤ 100 → (∀ ch ∈ s.data, ch ≠ '\n' ∧ ch ≠ '\r') →
      truncateString s 100 = s) ∧
    (∀ results : List ExecutionResult,
      agentTreesOfResults results = results.map buildAgentTree) := by
  refine ⟨?_, ?_, ?_, fun _ => rfl⟩
  · intro res h
    rw [buildAgentTree, h]
  · intro s
    rw [truncateString]
    split
    · assumption
    · rename_i hgt
      rw [String.length_append]
      simp only [String.length] at hgt ⊢
      rw [List.length_take]
      simp only [List.length_cons, List.length_nil]
      omega
  · intro s hlen hclean
    rw [truncateString]
    have hmap : s.data.map (fun c => if c = '\n' then ' ' else c) = s.data := by
      conv_rhs => rw [← List.map_id s.data]
      apply List.map_congr_left
      intro ch hch
      simp [(hclean ch hch).1]
    have hfil : ((⟨s.data.map (fun c => if c = '\n' then ' ' else c)⟩ :
        String)).data.filter (fun c => c ≠ '\r') = s.data := by
      show (s.data.map _).filter _ = s.data
      rw [hmap]
      apply List.filter_eq_self.mpr
      intro ch hch
      simp [(hclean ch hch).2]
    simp only [hfil]
    split
    · rfl
    · rename_i hgt
      exact absurd hlen hgt

/-- A concrete unparseable result for the C7 witness. -/
def c7Res : ExecutionResult :=
  { agentID := "a1", agentName := "agent1", answerJSON := "not json",
    parsedAnswer := none }

/-- Witness for C7 at concrete inputs. -/
theorem claimC7_witness :
    buildAgentTree c7Res =
      { agentID := c7Res.agentID, agentName := c7Res.agentName,
        roots := [.mk "0" (truncateString c7Res.answerJSON 100) [] false 0 0 0 [] false],
        nodeCount := 1, expanded := false } ∧
    (truncateString "hello" 100).length ≤ 100 ∧
    truncateString "hello" 100 = "hello" :=
  ⟨claimC7.1 c7Res rfl, claimC7.2.1 "hello",
    claimC7.2.2.1 "hello" (by decide) (by decide)⟩

/-! ### Claim C8: findLabel's selection rule -/

/-- Object whose first preference key (`name`) is present but holds a
number, while a later key (`id`) holds a non-empty string. -/
def c8Fields : List (String × Json) := [("name", .num 3), ("id", .str "z")]

/-- Counterexample to C8 as stated.  In `c8Fields` the first preference
key that is *present* is `name`, yet `findLabel` returns `"z"`, the value
of the later key `id` (and the array-element node is labelled `"z"`):
presence alone does not win — the value must be a non-empty string. -/
theorem claimC8_counterexample :
    labelKeys.find? (fun k => (lookupField c8Fields k).isSome) = some "name" ∧
    findLabel c8Fields = "z" ∧
    ("z" : String) ≠ "3" ∧
    ((buildTreeNodes (.arr [.obj c8Fields]) 0 0).1.map (fun n => n.label)) = ["z"] := by
  refine ⟨by decide, by decide, by decide, rfl⟩

/-- The selection rule C8 should have stated: the first key of the
preference list whose value is present *and is a non-empty string* wins;
otherwise the scan yields `""`. -/
def findLabelSpec (m : List (String × Json)) : String :=
  (labelKeys.filterMap (fun k =>
    match lookupField m k with
    | some (.str s) => if s = "" then none else some s
    | _ => none)).headD ""

theorem findLabelLoop_eq_spec (m : List (String × Json)) :
    ∀ ks : List String,
      findLabelLoop m ks =
        (ks.filterMap (fun k =>
          match lookupField m k with
          | some (.str s) => if s = "" then none else some s
          | _ => none)).headD "" := by
  intro ks
  induction ks with
  | nil => rfl
  | cons k rest ih =>
    rw [findLabelLoop, List.filterMap_cons]
    rcases hl : lookupField m k with _ | v
    · simpa using ih
    · match v with
      | .str s =>
        by_cases hs : s = ""
        · simp [hs, ih]
        · simp [hs]
      | .null => simpa using ih
      | .bool b => simpa using ih
      | .num n => simpa using ih
      | .arr a => simpa using ih
      | .obj o => simpa using ih

/-- Labels of the nodes built for an array of JSON values: the `i`-th
element, when it is an object, is labelled by the first non-empty-string
preference key, `"[<index>]"` otherwise. -/
theorem buildTreeNodesArr_label :
    ∀ (items : List Json) (j d c i : Nat) (fields : List (String × Json)),
      items.get? i = some (.obj fields) →
      ∃ node, (buildTreeNodesArr items j d c).1.get? i = some node ∧
        node.label =
          (if findLabel fields = "" then "[" ++ toString (j + i) ++ "]"
           else findLabel fields) := by
  intro items
  induction items with
  | nil => intro j d c i fields h; simp at h
  | cons item rest ih =>
    intro j d c i fields h
    cases i with
    | zero =>
      rw [List.get?_cons_zero] at h
      cases h
      rw [buildTreeNodesArr]
      refine ⟨_, rfl, ?_⟩
      by_cases hf : findLabel fields = "" <;> simp [hf]
    | succ i =>
      rw [List.get?_cons_succ] at h
      cases item <;>
        · simp only [buildTreeNodesArr]
          obtain ⟨node, hget, hlbl⟩ := ih (j + 1) d _ i fields h
          refine ⟨node, by simpa using hget, ?_⟩
          rw [hlbl]
          have heq : j + 1 + i = j + (i + 1) := by omega
          rw [heq]

/-- C8 as amended: `findLabel` scans the keys `name, Name, label, Label,
title, Title, path, Path, key, Key, id, Id, ID` in that order and the
first key present *whose value is a non-empty string* wins; when no key
qualifies the array-element label falls back to `"[<index>]"`. -/
theorem claimC8_amended :
    (∀ m : List (String × Json), findLabel m = findLabelSpec m) ∧
    (∀ (items : List Json) (d c i : Nat) (fields : List (String × Json)),
      items.get? i = some (.obj fields) →
      ∃ node, (buildTreeNodes (.arr items) d c).1.get? i = some node ∧
        node.label =
          (if findLabelSpec fields = "" then "[" ++ toString i ++ "]"
           else findLabelSpec fields)) := by
  have hfl : ∀ m : List (String × Json), findLabel m = findLabelSpec m :=
    fun m => findLabelLoop_eq_spec m labelKeys
  refine ⟨hfl, ?_⟩
  intro items d c i fields h
  obtain ⟨node, hget, hlbl⟩ := buildTreeNodesArr_label items 0 d c i fields h
  refine ⟨node, hget, ?_⟩
  rw [hlbl, hfl fields]
  simp

/-- Witness for C8 (amended) at concrete inputs: the rule applied to
`c8Fields`, and the fallback label of an object element with no usable
label key. -/
theorem claimC8_witness :
    findLabel c8Fields = findLabelSpec c8Fields ∧
    (∃ node, (buildTreeNodes (.arr [.obj [("x", .num 1)]]) 0 0).1.get? 0 =
        some node ∧
      node.label =
        (if findLabelSpec [("x", .num 1)] = "" then "[" ++ toString 0 ++ "]"
         else findLabelSpec [("x", .num 1)])) :=
  ⟨claimC8_amended.1 c8Fields,
    claimC8_amended.2 [.obj [("x", .num 1)]] 0 0 0 [("x", .num 1)] rfl⟩

/-! ### Claim C4: self-reference detection -/

/-- Two object rows sharing two columns, with an object-valued `a` column
and an all-null `b` column. -/
def c4Cex : List Json :=
  [.obj [("a", .obj []), ("b", .null)],
   .obj [("a", .obj []), ("b", .null)]]

/-- The claim's accept example `[{id:1,parent:null},{id:2,parent:1},
{id:3,parent:1}]`. -/
def c4Accept : List Json :=
  [.obj [("id", .num 1), ("parent", .null)],
   .obj [("id", .num 2), ("parent", .num 1)],
   .obj [("id", .num 3), ("parent", .num 1)]]

/-- Counterexample to C4 as stated.  `c4Cex` has 2 object rows sharing the
2 columns `a, b`; under the claim's classification the ordered pair
`(idColumn = "a", parentColumn = "b")` qualifies (every row's `b` value is
null, hence a valid reference and a root, a 100% ratio), so the claimed
iff requires the detector to return true — but the code returns false: it
skips every pair whose id column has no scalar values (`a` holds objects,
`b` holds nulls), a requirement absent from the claim. -/
theorem claimC4_counterexample :
    hasSelfReferentialFields c4Cex = false ∧
    hasSelfRefClaimed c4Cex = true ∧
    c4Cex.length = 2 ∧ (objRows c4Cex).length = 2 ∧
    firstColumns c4Cex = ["a", "b"] := by
  refine ⟨by decide, by decide, by decide, by decide, by decide⟩

/-- C4 as amended: the detector returns true iff there are at least 2
object rows, the first row has at least 2 columns, and some ordered pair
of distinct first-row columns `(idColumn, parentColumn)` satisfies: the
id column contributes at least one scalar id value (stringified, empty
strings excluded); classifying a row's parentColumn value as valid when
it is null or absent, stringifies to `""` (which includes non-scalar
values) or `"0"`, or stringifies into the id-value set, at least 80% of
the object rows are valid; and at least one row is a root.  The claim's
accept example still detects as true. -/
theorem claimC4_amended :
    (∀ rows : List Json,
      hasSelfReferentialFields rows = true ↔
        (2 ≤ rows.length ∧ 2 ≤ (objRows rows).length ∧
          2 ≤ (firstColumns rows).length ∧
          ∃ idCol ∈ firstColumns rows,
            idValuesOf (objRows rows) idCol ≠ [] ∧
            ∃ parentCol ∈ firstColumns rows, idCol ≠ parentCol ∧
              4 * (objRows rows).length ≤
                5 * (objRows rows).countP (fun row =>
                  validRef (idValuesOf (objRows rows) idCol)
                    (lookupField row parentCol)) ∧
              ∃ row ∈ objRows rows,
                rootRef (lookupField row parentCol) = true)) ∧
    hasSelfReferentialFields c4Accept = true := by
  refine ⟨?_, by decide⟩
  intro rows
  simp only [hasSelfReferentialFields, List.any_eq_true, Bool.and_eq_true,
    decide_eq_true_eq, ite_eq_iff, Bool.false_eq_true, and_false, false_and,
    false_or, List.isEmpty_iff, Nat.not_lt, ne_eq]

/-! ### Claims C6 and C9: the baseline differ -/

theorem strData_inj {x y : String} (h : x.data = y.data) : x = y := by
  cases x
  cases y
  exact congrArg String.mk h

theorem mem_insertStr (a x : String) (s : List String) :
    a ∈ insertStr x s ↔ a = x ∨ a ∈ s := by
  induction s with
  | nil => simp [insertStr]
  | cons y ys ih =>
    rw [insertStr]
    split
    · rename_i hxy
      subst hxy
      simp only [List.mem_cons]
      try tauto
    · split
      · simp only [List.mem_cons]
        try tauto
      · simp only [List.mem_cons, ih]
        try tauto

theorem sorted_insertStr (x : String) (s : List String)
    (hs : s.Pairwise (fun a b => a.data < b.data)) :
    (insertStr x s).Pairwise (fun a b => a.data < b.data) := by
  induction s with
  | nil => simp [insertStr]
  | cons y ys ih =>
    rcases List.pairwise_cons.mp hs with ⟨hy, hys⟩
    rw [insertStr]
    split
    · exact hs
    · rename_i hne
      split
      · rename_i hlt
        refine List.pairwise_cons.mpr ⟨?_, hs⟩
        intro b hb
        rcases List.mem_cons.mp hb with rfl | hmem
        · exact hlt
        · exact lt_trans hlt (hy b hmem)
      · rename_i hnlt
        have hyx : y.data < x.data := by
          rcases lt_trichotomy x.data y.data with h | h | h
          · exact absurd h hnlt
          · exact absurd (strData_inj h) hne
          · exact h
        refine List.pairwise_cons.mpr ⟨?_, ih hys⟩
        intro b hb
        rcases (mem_insertStr b x ys).mp hb with rfl | hmem
        · exact hyx
        · exact hy b hmem

theorem sorted_setStr (l : List String) :
    (setStr l).Pairwise (fun a b => a.data < b.data) := by
  induction l with
  | nil => simp [setStr]
  | cons x xs ih => exact sorted_insertStr x (setStr xs) ih

theorem mem_setStr (a : String) (l : List String) : a ∈ setStr l ↔ a ∈ l := by
  induction l with
  | nil => simp [setStr]
  | cons x xs ih =>
    show a ∈ insertStr x (setStr xs) ↔ _
    rw [mem_insertStr, ih]
    simp

theorem nodup_setStr (l : List String) : (setStr l).Nodup := by
  haveI : IsIrrefl String (fun a b => a.data < b.data) :=
    ⟨fun a => lt_irrefl a.data⟩
  exact (sorted_setStr l).nodup

/-- The canonical set of a list of strings depends only on the list up to
permutation (it is the key set of the Go map the strings were inserted
into). -/
theorem setStr_perm {l l' : List String} (h : l.Perm l') : setStr l = setStr l' := by
  haveI : IsAntisymm String (fun a b => a.data < b.data) :=
    ⟨fun a b h1 h2 => absurd h2 (asymm h1)⟩
  refine List.eq_of_perm_of_sorted ?_ (sorted_setStr l) (sorted_setStr l')
  refine (List.perm_ext_iff_of_nodup (nodup_setStr l) (nodup_setStr l')).mpr ?_
  intro a
  rw [mem_setStr, mem_setStr]
  exact h.mem_iff

theorem pathSetOf_perm {b b' : List ExecutionResult} (h : b.Perm b') :
    pathSetOf b = pathSetOf b' :=
  setStr_perm (h.flatMap_right extractPaths)

theorem agentsAt_perm {b b' : List ExecutionResult} (h : b.Perm b') (p : String) :
    agentsAt b p = agentsAt b' p :=
  setStr_perm ((h.filter _).map _)

@[simp] theorem mkDiffItem_path (ty : DiffType) (side : List ExecutionResult)
    (p : String) : (mkDiffItem ty side p).path = p := rfl

@[simp] theorem mkDiffItem_type (ty : DiffType) (side : List ExecutionResult)
    (p : String) : (mkDiffItem ty side p).type = ty := rfl

@[simp] theorem mkDiffItem_agentName (ty : DiffType) (side : List ExecutionResult)
    (p : String) :
    (mkDiffItem ty side p).agentName = String.intercalate ", " (agentsAt side p) :=
  rfl

@[simp] theorem mkDiffItem_agentCount (ty : DiffType) (side : List ExecutionResult)
    (p : String) : (mkDiffItem ty side p).agentCount = (agentsAt side p).length :=
  rfl

/-- Membership in the per-path agent set: exactly the (distinct) names of
results on that side whose extracted paths include the path. -/
theorem mem_agentsAt (side : List ExecutionResult) (p a : String) :
    a ∈ agentsAt side p ↔ ∃ r ∈ side, r.agentName = a ∧ p ∈ extractPaths r := by
  rw [agentsAt, mem_setStr]
  simp only [List.mem_map, List.mem_filter]
  constructor
  · rintro ⟨r, ⟨hr, hc⟩, rfl⟩
    exact ⟨r, hr, rfl, by simpa using hc⟩
  · rintro ⟨r, hr, rfl, hp⟩
    exact ⟨r, ⟨hr, by simpa using hp⟩, rfl⟩

/-- The baseline comparison for C6: one agent answering `{"a": 1}`. -/
def c6Base : List ExecutionResult :=
  [{ agentID := "1", agentName := "agent1", answerJSON := "",
     parsedAnswer := some (.obj [("a", .num 1)]) }]

/-- The current side of the C6 counterexample: the baseline object plus
one additional scalar-valued key `b`. -/
def c6CurrScalar : List ExecutionResult :=
  [{ agentID := "1", agentName := "agent1", answerJSON := "",
     parsedAnswer := some (.obj [("a", .num 1), ("b", .num 2)]) }]

/-- The current side whose additional key holds an empty object, so that
the key contributes no nested or leaf-value path. -/
def c6CurrEmptyObj : List ExecutionResult :=
  [{ agentID := "1", agentName := "agent1", answerJSON := "",
     parsedAnswer := some (.obj [("a", .num 1), ("b", .obj [])]) }]

/-- Counterexample to C6 as stated.  `c6CurrScalar` is `c6Base` plus the
single additional object key `b` (value `2`), yet `computeDiffs` produces
*two* New items, not one: scalar leaves additionally contribute the leaf
path `"/b=2"` beside the key path `"/b"`. -/
theorem claimC6_counterexample :
    (computeDiffs c6Base c6CurrScalar).map (fun d => (d.path, d.type)) =
      [("/b", DiffType.new), ("/b=2", DiffType.new)] ∧
    (computeDiffs c6Base c6CurrScalar).length = 2 := by
  refine ⟨by decide, by decide⟩

/-- C6 as amended: identical collections produce no diff item at all (in
particular zero New and zero Removed), and a current collection that adds
one object key whose value contributes no further paths (an empty object)
produces exactly one New item whose path is that key's path; an added
scalar key instead produces the key path and its leaf-value path (the
counterexample above). -/
theorem claimC6_amended :
    (∀ rs : List ExecutionResult, computeDiffs rs rs = []) ∧
    (computeDiffs c6Base c6CurrEmptyObj).map
        (fun d => (d.path, d.type, d.agentName, d.agentCount)) =
      [("/b", DiffType.new, "agent1", 1)] := by
  refine ⟨?_, rfl⟩
  intro rs
  simp only [computeDiffs]
  have hfil : (pathSetOf rs).filter (fun p => !(pathSetOf rs).contains p) = [] := by
    apply List.filter_eq_nil_iff.mpr
    intro p hmem
    simp [hmem]
  rw [hfil]
  simp

/-- C9: `computeDiffs` is deterministic and order-independent — permuting
either input collection leaves the emitted list unchanged; the list is
sorted strictly by type rank (`New < Removed < Modified < Unchanged`) and
then by path; every emitted item carries the comma-join of the sorted
distinct agent names of its side and their count; and the per-path agent
set is sorted, duplicate-free and holds exactly the names of the results
on the relevant side containing the path. -/
theorem claimC9 :
    (∀ b c b' c' : List ExecutionResult, b.Perm b' → c.Perm c' →
      computeDiffs b c = computeDiffs b' c') ∧
    (∀ b c : List ExecutionResult,
      (computeDiffs b c).Pairwise (fun x y =>
        diffTypeRank x.type < diffTypeRank y.type ∨
          (x.type = y.type ∧ x.path.data < y.path.data))) ∧
    (∀ (b c : List ExecutionResult) (item : DiffItem),
      item ∈ computeDiffs b c →
        (item.type = DiffType.new →
          item.agentName = String.intercalate ", " (agentsAt c item.path) ∧
          item.agentCount = (agentsAt c item.path).length) ∧
        (item.type = DiffType.removed →
          item.agentName = String.intercalate ", " (agentsAt b item.path) ∧
          item.agentCount = (agentsAt b item.path).length)) ∧
    (∀ (side : List ExecutionResult) (p : String),
      (agentsAt side p).Pairwise (fun a b => a.data < b.data) ∧
      (∀ a, a ∈ agentsAt side p ↔
        ∃ r ∈ side, r.agentName = a ∧ p ∈ extractPaths r)) := by
  refine ⟨?_, ?_, ?_, ?_⟩
  · intro b c b' c' hb hc
    simp only [computeDiffs, pathSetOf_perm hb, pathSetOf_perm hc]
    congr 1
    · apply List.map_congr_left
      intro p _
      simp only [mkDiffItem, agentsAt_perm hc]
    · apply List.map_congr_left
      intro p _
      simp only [mkDiffItem, agentsAt_perm hb]
  · intro b c
    simp only [computeDiffs]
    apply List.pairwise_append.mpr
    refine ⟨?_, ?_, ?_⟩
    · apply List.pairwise_map.mpr
      exact ((sorted_setStr _).filter _).imp (fun h => Or.inr ⟨rfl, h⟩)
    · apply List.pairwise_map.mpr
      exact ((sorted_setStr _).filter _).imp (fun h => Or.inr ⟨rfl, h⟩)
    · intro x hx y hy
      obtain ⟨p, _, rfl⟩ := List.mem_map.mp hx
      obtain ⟨q, _, rfl⟩ := List.mem_map.mp hy
      left
      simp [diffTypeRank]
  · intro b c item hmem
    simp only [computeDiffs] at hmem
    rcases List.mem_append.mp hmem with hx | hx
    · obtain ⟨p, _, rfl⟩ := List.mem_map.mp hx
      refine ⟨fun _ => ⟨rfl, rfl⟩, fun hty => ?_⟩
      simp only [mkDiffItem_type] at hty
      cases hty
    · obtain ⟨p, _, rfl⟩ := List.mem_map.mp hx
      refine ⟨fun hty => ?_, fun _ => ⟨rfl, rfl⟩⟩
      simp only [mkDiffItem_type] at hty
      cases hty
  · intro side p
    exact ⟨sorted_setStr _, fun a => mem_agentsAt side p a⟩

/-- Results for the C9 witness. -/
def c9r1 : ExecutionResult :=
  { agentID := "1", agentName := "agent1", answerJSON := "",
    parsedAnswer := some (.obj [("a", .num 1)]) }

/-- Second result for the C9 witness. -/
def c9r2 : ExecutionResult :=
  { agentID := "2", agentName := "agent2", answerJSON := "",
    parsedAnswer := some (.obj [("b", .num 2)]) }

/-- Witness for C9 at concrete inputs: swapping the two baseline results
leaves the diff list unchanged, and the first emitted item of a concrete
comparison carries the current-side agent data. -/
theorem claimC9_witness :
    computeDiffs [c9r1, c9r2] [c9r1] = computeDiffs [c9r2, c9r1] [c9r1] ∧
    (((computeDiffs [c9r1] [c9r2]).getD 0 (mkDiffItem .new [] "")).type =
        DiffType.new →
      ((computeDiffs [c9r1] [c9r2]).getD 0 (mkDiffItem .new [] "")).agentName =
        String.intercalate ", "
          (agentsAt [c9r2]
            ((computeDiffs [c9r1] [c9r2]).getD 0 (mkDiffItem .new [] "")).path) ∧
      ((computeDiffs [c9r1] [c9r2]).getD 0 (mkDiffItem .new [] "")).agentCount =
        (agentsAt [c9r2]
          ((computeDiffs [c9r1] [c9r2]).getD 0 (mkDiffItem .new [] "")).path).length) :=
  ⟨claimC9.1 [c9r1, c9r2] [c9r1] [c9r2, c9r1] [c9r1]
      (List.Perm.swap c9r2 c9r1 []) (List.Perm.refl _),
    (claimC9.2.2.1 [c9r1] [c9r2] _ (List.Mem.head _)).1⟩

/-! ### Fuel sufficiency of the aggregated-tree builder

These lemmas justify using `paths.length + 1` as the fuel of
`buildAggregatedNodes`: the result is unchanged by any additional fuel, so
the wrapper computes the same tree as Go's unbounded recursion (whose
termination argument — each recursive call moves to a strictly longer key
of the path map — is exactly the measure used here). -/

/-- Number of accumulator entries whose key is strictly longer than the
prefix; the termination measure of `buildAggregatedNodes`. -/
def countLonger (paths : List (String × AggEntry)) (pfx : String) : Nat :=
  (paths.filter (fun pe => decide (pfx.length < pe.1.length))).length

theorem data_append (a b : String) : (a ++ b).data = a.data ++ b.data := by
  cases a
  cases b
  rfl

theorem directChildOf_length {pfx p : String} (h : directChildOf pfx p = true) :
    pfx.length < p.length := by
  simp only [directChildOf, Bool.and_eq_true] at h
  have hpre := List.isPrefixOf_iff_prefix.mp h.1
  have hle := hpre.length_le
  have hdata : (pfx ++ "/").data.length = pfx.data.length + 1 := by
    rw [data_append]
    simp
  simp only [String.length]
  omega

theorem countP_lt_of_witness {α : Type} (l : List α) (p q : α → Bool)
    (himp : ∀ a ∈ l, p a = true → q a = true) (a0 : α) (ha0 : a0 ∈ l)
    (hq : q a0 = true) (hp : p a0 = false) : l.countP p < l.countP q := by
  induction l with
  | nil => cases ha0
  | cons x xs ih =>
    rw [List.countP_cons, List.countP_cons]
    rcases List.mem_cons.mp ha0 with rfl | hmem
    · have hmono : xs.countP p ≤ xs.countP q :=
        List.countP_mono_left (fun a ha => himp a (List.mem_cons_of_mem _ ha))
      have hx : (if p a0 = true then 1 else 0) = 0 := by rw [hp]; simp
      have hqx : (if q a0 = true then 1 else 0) = 1 := by rw [hq, if_pos rfl]
      omega
    · have hstep := ih (fun a ha hpa => himp a (List.mem_cons_of_mem _ ha) hpa) hmem
      have hhead : (if p x = true then 1 else 0) ≤ (if q x = true then 1 else 0) := by
        by_cases hpx : p x = true
        · rw [if_pos hpx, if_pos (himp x (List.Mem.head _) hpx)]
        · rw [if_neg hpx]
          omega
      omega

theorem countLonger_lt {paths : List (String × AggEntry)} {pfx : String}
    {e : String × AggEntry} (hmem : e ∈ paths)
    (hchild : directChildOf pfx e.1 = true) :
    countLonger paths e.1 < countLonger paths pfx := by
  have hlen := directChildOf_length hchild
  simp only [countLonger, ← List.countP_eq_length_filter]
  apply countP_lt_of_witness _ _ _ ?_ e hmem (by simpa using hlen) (by simp)
  intro a _ ha
  simp only [decide_eq_true_eq] at ha ⊢
  omega

theorem buildAggF_stable :
    ∀ (n : Nat) (f g : Nat) (paths : List (String × AggEntry)) (pfx : String)
      (total : Nat) (anom : Bool),
      countLonger paths pfx < f → countLonger paths pfx < g → f ≤ n → g ≤ n →
      buildAggregatedNodesF paths f pfx total anom =
        buildAggregatedNodesF paths g pfx total anom := by
  intro n
  induction n with
  | zero =>
    intro f g paths pfx total anom hf hg hfn hgn
    omega
  | succ n ih =>
    intro f g paths pfx total anom hf hg hfn hgn
    match f, hf, hfn with
    | f' + 1, hf, hfn =>
      match g, hg, hgn with
      | g' + 1, hg, hgn =>
        rw [buildAggregatedNodesF, buildAggregatedNodesF]
        apply List.filterMap_congr
        intro e he
        have hmem : e ∈ paths.filter (fun pe => directChildOf pfx pe.1) :=
          (mem_sortByCountDesc _ _).mp he
        have hchild : directChildOf pfx e.1 = true :=
          (List.mem_filter.mp hmem).2
        have hlt : countLonger paths e.1 < countLonger paths pfx :=
          countLonger_lt (List.mem_filter.mp hmem).1 hchild
        rw [ih f' g' paths e.1 total anom (by omega) (by omega)
          (by omega) (by omega)]

/-- Extra fuel beyond `paths.length + 1` never changes the aggregated
tree: the wrapper `buildAggregatedNodes` computes Go's fixpoint. -/
theorem buildAggregatedNodes_fuel_stable
    (paths : List (String × AggEntry)) (pfx : String) (total : Nat)
    (anom : Bool) (extra : Nat) :
    buildAggregatedNodesF paths (paths.length + 1 + extra) pfx total anom =
      buildAggregatedNodes paths pfx total anom := by
  have hb : countLonger paths pfx ≤ paths.length := by
    simpa [countLonger] using List.length_filter_le _ paths
  exact buildAggF_stable (paths.length + 1 + extra) _ _ paths pfx total anom
    (by omega) (by omega) (by omega) (by omega)

end BinmaveSpec
